import Mathlib

/-!
Shallow embedding of `relays.py` (asynchronous relay circuit prover).

Python dictionaries are modelled as association lists with first-match
lookup (`Dict.get?`) and replace-or-append update (`Dict.insert`), which
matches `dict` semantics for lookup, `in`, and `d[k] = v`.  Python sets of
wire names are modelled as duplicate-free lists with membership-based
insertion and union (`sinsert`, `sunion`); where the source iterates over
such a set in an unspecified hash order, the embedding iterates in list
order (the resolver is proved independent of that order below).
-/

namespace Relays

/-- `WireState` enum of the source: the code defines exactly the three
members `LOW`, `HIGH`, `FLOATING` (no short-circuit member exists). -/
inductive WireState where
  | LOW
  | HIGH
  | FLOATING
deriving DecidableEq, Repr

export WireState (LOW HIGH FLOATING)

/-- `RelayPosition` enum of the source. -/
inductive RelayPosition where
  | OFF
  | SWITCHING
  | ON
deriving DecidableEq, Repr

/-- The `Relay` dataclass.  In the source `name`, `coil_a`, `coil_b`,
`comm`, `no` are required `str` fields and `nc` is optional (`None` by
default).  Python truthiness of a `str` field is the test `≠ ""`; for the
optional `nc` it is `nc.getD "" ≠ ""`. -/
structure Relay where
  name : String
  coil_a : String
  coil_b : String
  comm : String
  no : String
  nc : Option String := none
deriving DecidableEq, Repr

namespace Dict

/-- First-match lookup, the meaning of `d[k]` / `d.get(k)`. -/
def get? {β : Type} : List (String × β) → String → Option β
  | [], _ => none
  | p :: d, k => if p.1 = k then some p.2 else get? d k

/-- Membership test, the meaning of `k in d`. -/
def contains {β : Type} (d : List (String × β)) (k : String) : Bool :=
  (get? d k).isSome

/-- Lookup with a default, the meaning of `d.get(k, dflt)`. -/
def getD {β : Type} (d : List (String × β)) (k : String) (dflt : β) : β :=
  (get? d k).getD dflt

/-- Update `d[k] = v`: replace the value at an existing key in place,
otherwise append the new binding. -/
def insert {β : Type} : List (String × β) → String → β → List (String × β)
  | [], k, v => [(k, v)]
  | p :: d, k, v => if p.1 = k then (k, v) :: d else p :: insert d k v

end Dict

/-- `WireStates` / `FixedWires`: mapping from wire name to `WireState`. -/
abbrev WS := List (String × WireState)

/-- `RelayStates`: mapping from relay name to `RelayPosition` (the source
keys these dictionaries by `relay.name`). -/
abbrev RS := List (String × RelayPosition)

/-- Python set insertion: add an element unless already present. -/
def sinsert (x : String) (s : List String) : List String :=
  if x ∈ s then s else s ++ [x]

/-- Python set union (`|=`): add every element of `b` to `a`. -/
def sunion (a b : List String) : List String :=
  b.foldl (fun acc x => sinsert x acc) a

/-- Truthiness of `group1 & group2`: the two sets share an element. -/
def overlaps : List String → List String → Bool
  | [], _ => false
  | x :: xs, b => if x ∈ b then true else overlaps xs b

/-- The connection derived from one relay (body of the first loop of
`propagate_signals`): `ON` connects `comm` and `no` when `no` is truthy,
`OFF` connects `comm` and `nc` when `nc` is truthy, `SWITCHING` none. -/
def edgeOf (relay_states : RS) (relay : Relay) : Option (List String) :=
  let pos := Dict.getD relay_states relay.name RelayPosition.OFF
  if pos = RelayPosition.ON ∧ relay.no ≠ "" then
    some (sinsert relay.no [relay.comm])
  else if pos = RelayPosition.OFF ∧ relay.nc.getD "" ≠ "" then
    some (sinsert (relay.nc.getD "") [relay.comm])
  else
    none

/-- A list paired with indices starting at `n` (for `enumerate`). -/
def withIdx {α : Type} : Nat → List α → List (Nat × α)
  | _, [] => []
  | n, a :: l => (n, a) :: withIdx (n + 1) l

/-- Inner loop of the merge pass of `propagate_signals`
(`for j, group2 in enumerate(connections): ...`): absorbs every not-used
group overlapping `group1` into the accumulated `merged_group`, recording
the absorbed indices in `used` and raising the `merged` flag. -/
def innerLoop (i : Nat) (group1 : List String) :
    List (Nat × List String) → List String → List Nat → Bool →
    List String × List Nat × Bool
  | [], mg, used, fl => (mg, used, fl)
  | (j, group2) :: rest, mg, used, fl =>
    if i ≠ j ∧ j ∉ used ∧ overlaps group1 group2 then
      innerLoop i group1 rest (sunion mg group2) (j :: used) true
    else
      innerLoop i group1 rest mg used fl

/-- Outer loop of the merge pass
(`for i, group1 in enumerate(connections): ...`): skips used indices,
otherwise runs the inner loop starting from `merged_group = set(group1)`,
appends the merged group and marks `i` used. -/
def outerLoop (full : List (Nat × List String)) :
    List (Nat × List String) → List Nat → List (List String) → Bool →
    List (List String) × Bool
  | [], _, acc, fl => (acc, fl)
  | (i, group1) :: rest, used, acc, fl =>
    if i ∈ used then
      outerLoop full rest used acc fl
    else
      outerLoop full rest
        (i :: (innerLoop i group1 full group1 used fl).2.1)
        (acc ++ [(innerLoop i group1 full group1 used fl).1])
        (innerLoop i group1 full group1 used fl).2.2

/-- One pass of the `while merged:` loop of `propagate_signals`. -/
def mergePass (connections : List (List String)) :
    List (List String) × Bool :=
  outerLoop (withIdx 0 connections) (withIdx 0 connections) [] [] false

/-- The `while merged:` loop, fuelled.  A pass that reports a merge
strictly shrinks the list (proved below), so fuel `length + 1` never runs
out and the function agrees with the unbounded source loop. -/
def mergeLoop : Nat → List (List String) → List (List String)
  | 0, connections => connections
  | fuel + 1, connections =>
    if (mergePass connections).2 then mergeLoop fuel (mergePass connections).1
    else (mergePass connections).1

/-- Value collection of the per-group resolution loop
(`for wire in group: if wire in fixed_wires: ... elif wire in wires and
wires[wire] != FLOATING: ...`). -/
def collectValues (fixed_wires wires : WS) (g : List String) :
    List WireState :=
  g.foldl
    (fun values wire =>
      match Dict.get? fixed_wires wire with
      | some v => values ++ [v]
      | none =>
        match Dict.get? wires wire with
        | some v => if v ≠ FLOATING then values ++ [v] else values
        | none => values)
    []

/-- Per-group resolution (`if values: if len(set(values)) > 1: ... else:
...`): a conflict (`len(set(values)) > 1`, i.e. more than one distinct
collected value) writes `FLOATING` to every non-fixed wire of the group;
otherwise the single value `values[0]` propagates to them. -/
def processGroup (fixed_wires : WS) (wires : WS) (g : List String) : WS :=
  match collectValues fixed_wires wires g with
  | [] => wires
  | v :: vs =>
    if 1 < ((v :: vs).dedup).length then
      g.foldl
        (fun ws wire =>
          if Dict.contains fixed_wires wire then ws
          else Dict.insert ws wire FLOATING) wires
    else
      g.foldl
        (fun ws wire =>
          if Dict.contains fixed_wires wire then ws
          else Dict.insert ws wire v) wires

/-- The set of wires a relay contributes to `all_wires`
(`all_wires.update([coil_a, coil_b, comm])` plus truthy `no` / `nc`). -/
def relayWires (relay : Relay) : List String :=
  let base := sinsert relay.comm (sinsert relay.coil_b [relay.coil_a])
  let withNo := if relay.no ≠ "" then sinsert relay.no base else base
  if relay.nc.getD "" ≠ "" then sinsert (relay.nc.getD "") withNo else withNo

/-- `all_wires`: every wire referenced by any relay terminal. -/
def allWires (relays : List Relay) : List String :=
  relays.foldl (fun acc relay => sunion acc (relayWires relay)) []

/-- `propagate_signals(relays, relay_states, fixed_wires)`. -/
def propagate_signals (relays : List Relay) (relay_states : RS)
    (fixed_wires : WS) : WS :=
  let wires := fixed_wires
  let connections := relays.filterMap (edgeOf relay_states)
  let merged := mergeLoop (connections.length + 1) connections
  let wires2 := merged.foldl (processGroup fixed_wires) wires
  (allWires relays).foldl
    (fun ws wire =>
      if Dict.contains ws wire then ws
      else Dict.insert ws wire FLOATING) wires2

/-- Loop body of `get_unstable_relays`: add the relay's name when the
coil voltage demands a change (`if coil_energized and current_pos != ON`
/ `elif not coil_energized and current_pos != OFF` / `elif current_pos ==
SWITCHING`). -/
def unstableStep (relay_states : RS) (wire_states : WS)
    (unstable : List String) (relay : Relay) : List String :=
  let coil_a_state := Dict.getD wire_states relay.coil_a FLOATING
  let coil_b_state := Dict.getD wire_states relay.coil_b FLOATING
  let coil_energized := coil_a_state = HIGH ∧ coil_b_state = LOW
  let current_pos := Dict.getD relay_states relay.name RelayPosition.OFF
  if coil_energized ∧ current_pos ≠ RelayPosition.ON then
    unstable ++ [relay.name]
  else if ¬coil_energized ∧ current_pos ≠ RelayPosition.OFF then
    unstable ++ [relay.name]
  else if current_pos = RelayPosition.SWITCHING then
    unstable ++ [relay.name]
  else unstable

/-- `get_unstable_relays(relays, relay_states, wire_states)`: the set of
names of relays that must change state (modelled as a deduplicated list in
relay order). -/
def get_unstable_relays (relays : List Relay) (relay_states : RS)
    (wire_states : WS) : List String :=
  (relays.foldl (unstableStep relay_states wire_states) []).dedup

/-- `get_relay_transitions(relay_name, relays, relay_states, wire_states)`:
the possible next positions of the named relay; a name not found in the
topology yields the empty list (`if not relay: return []`). -/
def get_relay_transitions (relay_name : String) (relays : List Relay)
    (relay_states : RS) (wire_states : WS) : List RelayPosition :=
  match relays.find? (fun r => r.name == relay_name) with
  | none => []
  | some relay =>
    let current_pos := Dict.getD relay_states relay_name RelayPosition.OFF
    let coil_a_state := Dict.getD wire_states relay.coil_a FLOATING
    let coil_b_state := Dict.getD wire_states relay.coil_b FLOATING
    let coil_energized := coil_a_state = HIGH ∧ coil_b_state = LOW
    match current_pos with
    | RelayPosition.OFF =>
      if coil_energized then [RelayPosition.SWITCHING] else []
    | RelayPosition.ON =>
      if ¬coil_energized then [RelayPosition.SWITCHING] else []
    | RelayPosition.SWITCHING =>
      if coil_energized then [RelayPosition.ON] else [RelayPosition.OFF]

/-- `transition_relay`: commit one relay's new position
(`{**relay_states, relay_name: new_position}`) and recompute wires. -/
def transition_relay (relay_name : String) (new_position : RelayPosition)
    (relays : List Relay) (relay_states : RS) (fixed_wires : WS) :
    RS × WS :=
  let new_relay_states := Dict.insert relay_states relay_name new_position
  let new_wire_states := propagate_signals relays new_relay_states fixed_wires
  (new_relay_states, new_wire_states)

/-- Code-point comparison of characters. -/
def chLt (a b : Char) : Bool :=
  a.toNat < b.toNat

/-- Lexicographic `≤` on character lists. -/
def dataLe : List Char → List Char → Bool
  | [], _ => true
  | _ :: _, [] => false
  | c :: cs, d :: ds =>
    if chLt c d then true else if chLt d c then false else dataLe cs ds

/-- Python's lexicographic string `<=` (code-point order). -/
def strLe (a b : String) : Bool :=
  dataLe a.data b.data

/-- Insert a binding into a list sorted by key (step of `sorted(...)`). -/
def insSorted (x : String × RelayPosition) : RS → RS
  | [] => [x]
  | y :: ys => if strLe x.1 y.1 then x :: y :: ys else y :: insSorted x ys

/-- `str(sorted(initial_relay_states.items()))`: the cycle-detection key
— the literal item list of the mapping sorted by relay name (absent
entries are NOT filled in with `OFF`). -/
def stateKey (st : RS) : RS :=
  st.foldr insSorted []

/-- `explore_all_sequences(relays, fixed_wires, initial_relay_states,
max_depth, visited)`.  The source checks
`state_key in visited or max_depth <= 0`; when `max_depth` is `0` both the
depth test and the visited test return the same single-snapshot path, so
matching on the depth first is the same function. -/
def explore_all_sequences (relays : List Relay) (fixed_wires : WS) :
    RS → List RS → Nat → List (List (RS × WS))
  | st, _, 0 => [[(st, propagate_signals relays st fixed_wires)]]
  | st, visited, d + 1 =>
    let wire_states := propagate_signals relays st fixed_wires
    let cur := (st, wire_states)
    let key := stateKey st
    if key ∈ visited then [[cur]]
    else
      let unstable := get_unstable_relays relays st wire_states
      if unstable = [] then [[cur]]
      else
        unstable.flatMap (fun relay_name =>
          (get_relay_transitions relay_name relays st wire_states).flatMap
            (fun new_position =>
              (explore_all_sequences relays fixed_wires
                (transition_relay relay_name new_position relays st
                  fixed_wires).1
                (key :: visited) d).map (fun path => cur :: path)))

/-- `simulate(relays, inputs, max_depth=100)`. -/
def simulate (relays : List Relay) (inputs : WS)
    (max_depth : Nat := 100) : List (List (RS × WS)) :=
  explore_all_sequences relays inputs [] [] max_depth

/-- `wait_for_stable(relays, inputs, output_wires)`: `(all_stable,
stable_outputs)` with the set of distinct stable output tuples modelled
as a duplicate-free list in first-seen order. -/
def wait_for_stable (relays : List Relay) (inputs : WS)
    (output_wires : List String) :
    Bool × List (List (String × WireState)) :=
  let paths := simulate relays inputs
  paths.foldl
    (fun acc path =>
      let fin := path.getLastD ([], [])
      let unstable := get_unstable_relays relays fin.1 fin.2
      if unstable = [] then
        let output_vals :=
          output_wires.map (fun w => (w, Dict.getD fin.2 w FLOATING))
        (acc.1, if output_vals ∈ acc.2 then acc.2 else acc.2 ++ [output_vals])
      else
        (false, acc.2))
    (true, [])

/-- `inverter_circuit()`. -/
def inverter_circuit : List Relay :=
  [{ name := "Inverter", coil_a := "In", coil_b := "GND",
     comm := "Out", no := "GND", nc := some "VCC" }]

/-- `race_condition_circuit()`. -/
def race_condition_circuit : List Relay :=
  [{ name := "Path1_High", coil_a := "Trigger", coil_b := "GND",
     comm := "VCC", no := "Out" },
   { name := "Path2_Low", coil_a := "Trigger", coil_b := "GND",
     comm := "GND", no := "Out" }]

/-- The inputs used with the race circuit:
`{'Trigger': HIGH, 'VCC': HIGH, 'GND': LOW}`. -/
def raceFixed : WS :=
  [("Trigger", HIGH), ("VCC", HIGH), ("GND", LOW)]

/-- Both race-circuit relays committed `ON`. -/
def bothOn : RS :=
  [("Path1_High", RelayPosition.ON), ("Path2_Low", RelayPosition.ON)]

/-- The inverter inputs `{'In': LOW, 'VCC': HIGH, 'GND': LOW}`. -/
def invLow : WS :=
  [("In", LOW), ("VCC", HIGH), ("GND", LOW)]

/-- The inverter inputs `{'In': HIGH, 'VCC': HIGH, 'GND': LOW}`. -/
def invHigh : WS :=
  [("In", HIGH), ("VCC", HIGH), ("GND", LOW)]

/-- An astable (oscillating) relay: its own output wire drives its coil,
`OFF` connects the output to `VCC` (energizing the coil), `ON` connects it
to `GND` (de-energizing it). -/
def oscRelay : Relay :=
  { name := "R", coil_a := "Out", coil_b := "GND",
    comm := "Out", no := "GND", nc := some "VCC" }

/-- Power rails for the oscillator. -/
def oscFixed : WS :=
  [("VCC", HIGH), ("GND", LOW)]

/-- First of two structurally distinct relays sharing the label `R`. -/
def dupA : Relay :=
  { name := "R", coil_a := "A1", coil_b := "B1", comm := "C1", no := "N1" }

/-- Second of two structurally distinct relays sharing the label `R`. -/
def dupB : Relay :=
  { name := "R", coil_a := "A2", coil_b := "B2", comm := "C2", no := "N2" }

/-- Fixed wires distinguishing the two duplicate-label relays' contacts. -/
def dupFixed : WS :=
  [("N1", HIGH), ("N2", LOW)]

/-- A relay whose `OFF` contact joins `C` to `A`. -/
def leakA : Relay :=
  { name := "T1", coil_a := "ca1", coil_b := "cb1", comm := "C",
    no := "", nc := some "A" }

/-- A relay whose `OFF` contact joins `C` to `B`. -/
def leakB : Relay :=
  { name := "T2", coil_a := "ca2", coil_b := "cb2", comm := "C",
    no := "", nc := some "B" }

/-- Fixed wires with an explicitly `FLOATING` fixed wire `A` and a driven
wire `B` in the same connection group. -/
def leakFixed : WS :=
  [("A", FLOATING), ("B", HIGH)]

/-- The same configuration without the fixed `FLOATING` entry. -/
def leakFixedNoFloat : WS :=
  [("B", HIGH)]

/-- The energization predicate of §4.2: `coil_a == HIGH and coil_b ==
LOW` under the given wire states, absent wires read as `FLOATING`. -/
def coilEnergized (wire_states : WS) (relay : Relay) : Prop :=
  Dict.getD wire_states relay.coil_a FLOATING = HIGH ∧
  Dict.getD wire_states relay.coil_b FLOATING = LOW

/-- The instability condition of the loop body of `get_unstable_relays`:
the relay's name is appended exactly when this holds. -/
def unstableNow (relay_states : RS) (wire_states : WS) (relay : Relay) :
    Prop :=
  let current_pos := Dict.getD relay_states relay.name RelayPosition.OFF
  (coilEnergized wire_states relay ∧ current_pos ≠ RelayPosition.ON) ∨
  (¬coilEnergized wire_states relay ∧ current_pos ≠ RelayPosition.OFF) ∨
  current_pos = RelayPosition.SWITCHING

/-- The committed position a snapshot assigns to a relay name (absent
entries read as `OFF`). -/
def snapPos (s : RS × WS) (n : String) : RelayPosition :=
  Dict.getD s.1 n RelayPosition.OFF

/-- Two consecutive snapshots never move any relay directly between
`OFF` and `ON`. -/
def noFlip (a b : RS × WS) : Prop :=
  ∀ n : String,
    ¬(snapPos a n = RelayPosition.OFF ∧ snapPos b n = RelayPosition.ON) ∧
    ¬(snapPos a n = RelayPosition.ON ∧ snapPos b n = RelayPosition.OFF)

/-- Two wires share some connection group of the list. -/
def touches (conns : List (List String)) (a b : String) : Prop :=
  ∃ g ∈ conns, a ∈ g ∧ b ∈ g

/-- Transitive closure of `touches`: the two wires are joined by a chain
of connection groups. -/
def Linked (conns : List (List String)) : String → String → Prop :=
  Relation.TransGen (touches conns)

/-- A wire appearing in some connection group. -/
def support (conns : List (List String)) (w : String) : Prop :=
  ∃ g ∈ conns, w ∈ g

/-- The fixed values asserted on a group, in group order (used to state
what the per-group resolution computes). -/
def groupValues (fixed_wires : WS) (g : List String) : List WireState :=
  g.foldl
    (fun values wire =>
      match Dict.get? fixed_wires wire with
      | some v => values ++ [v]
      | none => values)
    []

/-- The value every non-fixed wire of a group resolves to: `none` when no
fixed value reaches the group (the group loop leaves the wire absent),
the single asserted value, or `FLOATING` on a conflict. -/
def resolvedValue? (fixed_wires : WS) (g : List String) : Option WireState :=
  match groupValues fixed_wires g with
  | [] => none
  | v :: vs => some (if 1 < ((v :: vs).dedup).length then FLOATING else v)

end Relays

namespace Relays

/-- C1: the claim says a connection group holding two or more distinct
asserted values makes every non-fixed wire `SHORT_CIRCUIT`, never
`FLOATING`.  The code has no `SHORT_CIRCUIT` member at all (`WireState`
is exactly `LOW`/`HIGH`/`FLOATING`) and marks conflicted wires
`FLOATING`: with both race-circuit relays `ON`, `Out` sits in a group
asserting both `HIGH` (from `VCC`) and `LOW` (from `GND`) and is resolved
to `FLOATING`.  The repository's own tests
(`test_race_condition_short_circuit`) instead require
`result['Out'] == SHORT_CIRCUIT`, so the code contradicts its tests. -/
theorem C1_code_conflict_yields_floating :
    Dict.get? (propagate_signals race_condition_circuit bothOn raceFixed)
      "Out" = some FLOATING ∧
    ∀ v : WireState, v = LOW ∨ v = HIGH ∨ v = FLOATING := by
  constructor
  · decide
  · intro v
    cases v
    · exact Or.inl rfl
    · exact Or.inr (Or.inl rfl)
    · exact Or.inr (Or.inr rfl)

/-- C2 counterexample: on the race topology with `Trigger=HIGH`,
`VCC=HIGH`, `GND=LOW`, `wait_for_stable` does NOT return more than one
distinct output tuple: both relays are permanently energized, every path
settles with both `ON`, and the single stable output tuple is
`Out = FLOATING` (the code's conflict marker). -/
theorem C2_single_output_counterexample :
    ¬ 1 < (wait_for_stable race_condition_circuit raceFixed ["Out"]).2.length := by
  decide

/-- C2 amended: on the race topology, `wait_for_stable` reports
`all_stable = true` and exactly one distinct output tuple,
`(Out, FLOATING)`: both relays are always energized (their coils are the
fixed `Trigger`/`GND` wires), so the only stable configuration has both
`ON`, where `Out` is a driven conflict, which the code renders as
`FLOATING`.  The differing switch interleavings all converge to the same
terminal output. -/
theorem C2_amended_single_stable_output :
    wait_for_stable race_condition_circuit raceFixed ["Out"] =
      (true, [[("Out", FLOATING)]]) := by
  decide

/-- C3: the claim says relay-state maps key on relay identity, never the
label, so committing a transition for one of two structurally identical
but distinct instances leaves the other unchanged.  The code keys
`RelayStates` by `relay.name`: with the two distinct relays `dupA`/`dupB`
that share the label `R`, transitioning `R` to `ON` flips the effective
committed position of BOTH instances (both contacts close: `C1` is driven
`HIGH` through `N1` and `C2` is driven `LOW` through `N2`), while the
repository's own tests key these maps by the relay object and create
relays without names. -/
theorem C3_name_keyed_transition_changes_both :
    Dict.getD ([] : RS) dupB.name RelayPosition.OFF = RelayPosition.OFF ∧
    Dict.getD (transition_relay "R" RelayPosition.ON [dupA, dupB] [] dupFixed).1
      dupB.name RelayPosition.OFF = RelayPosition.ON ∧
    Dict.get? (transition_relay "R" RelayPosition.ON [dupA, dupB] [] dupFixed).2
      "C2" = some LOW ∧
    Dict.get? (transition_relay "R" RelayPosition.ON [dupA, dupB] [] dupFixed).2
      "C1" = some HIGH := by
  decide

/-- C4 counterexample: the claim reads relay configurations with absent
entries defaulted to `OFF`, but the code's cycle key is the literal item
list of the mapping, so `{}` and `{'R': OFF}` are different keys.  On the
oscillator the single returned path visits the `R = OFF` configuration at
positions 0 and 2 — two distinct non-terminal positions (the terminal
snapshot is position 3 of 4). -/
theorem C4_counterexample_repeated_configuration :
    (explore_all_sequences [oscRelay] oscFixed [] [] 100).map
      (fun p => p.map (fun s => Dict.getD s.1 "R" RelayPosition.OFF)) =
    [[RelayPosition.OFF, RelayPosition.SWITCHING,
      RelayPosition.OFF, RelayPosition.SWITCHING]] := by
  decide

/-- C7 counterexample: requesting the transitions of a relay identity not
present in the topology does not fail with a NotFound condition — the
call returns the ordinary empty transition list, the same normal value a
present-but-stable relay produces (here `Inverter` with `In = LOW`). -/
theorem C7_counterexample_returns_empty :
    get_relay_transitions "Ghost" inverter_circuit []
      (propagate_signals inverter_circuit [] invLow) = [] ∧
    get_relay_transitions "Inverter" inverter_circuit []
      (propagate_signals inverter_circuit [] invLow) = [] := by
  decide

/-- C10: a fixed wire mapped to `FLOATING` is collected as an asserted
driver value.  `C` is joined to the fixed-`FLOATING` wire `A` and the
fixed-`HIGH` wire `B` through two `OFF` relays; the group collects the
two distinct values `{FLOATING, HIGH}` and takes the conflict branch, so
`C` resolves to `FLOATING` — whereas with the fixed `FLOATING` entry
removed the same group propagates `HIGH` to `C`. -/
theorem C10_fixed_floating_is_driver :
    Dict.get? (propagate_signals [leakA, leakB] [] leakFixed) "C" =
      some FLOATING ∧
    Dict.get? (propagate_signals [leakA, leakB] [] leakFixedNoFloat) "C" =
      some HIGH := by
  decide

end Relays

namespace Relays

/-! ### Dictionary lemmas -/

theorem Dict.get?_insert_self {β : Type} (d : List (String × β)) (k : String)
    (v : β) : Dict.get? (Dict.insert d k v) k = some v := by
  induction d with
  | nil => simp [Dict.insert, Dict.get?]
  | cons p d ih =>
    by_cases h : p.1 = k
    · simp [Dict.insert, h, Dict.get?]
    · simp [Dict.insert, h, Dict.get?, ih]

theorem Dict.get?_insert_ne {β : Type} (d : List (String × β))
    (k k' : String) (v : β) (h : k' ≠ k) :
    Dict.get? (Dict.insert d k v) k' = Dict.get? d k' := by
  have hkk : ¬ k = k' := fun hh => h hh.symm
  induction d with
  | nil =>
    show Dict.get? [(k, v)] k' = Dict.get? [] k'
    simp only [Dict.get?]
    exact if_neg hkk
  | cons p d ih =>
    show Dict.get?
      (if p.1 = k then (k, v) :: d else p :: Dict.insert d k v) k' = _
    by_cases hp : p.1 = k
    · rw [if_pos hp]
      have hp' : ¬ p.1 = k' := by rw [hp]; exact hkk
      show (if k = k' then some v else Dict.get? d k') = _
      rw [if_neg hkk]
      show _ = (if p.1 = k' then some p.2 else Dict.get? d k')
      rw [if_neg hp']
    · rw [if_neg hp]
      show (if p.1 = k' then some p.2 else Dict.get? (Dict.insert d k v) k')
        = (if p.1 = k' then some p.2 else Dict.get? d k')
      by_cases hp' : p.1 = k'
      · rw [if_pos hp', if_pos hp']
      · rw [if_neg hp', if_neg hp', ih]

theorem Dict.getD_insert_ne {β : Type} (d : List (String × β))
    (k k' : String) (v dflt : β) (h : k' ≠ k) :
    Dict.getD (Dict.insert d k v) k' dflt = Dict.getD d k' dflt := by
  simp [Dict.getD, Dict.get?_insert_ne d k k' v h]

theorem Dict.getD_insert_self {β : Type} (d : List (String × β))
    (k : String) (v dflt : β) :
    Dict.getD (Dict.insert d k v) k dflt = v := by
  simp [Dict.getD, Dict.get?_insert_self]

/-! ### Fixed wires are never overwritten (C8) -/

/-- A fold that writes a constant only at keys outside `fixed_wires`
preserves the lookup of any key of `fixed_wires`. -/
theorem get?_foldl_guarded (fixed_wires : WS) (c : WireState)
    (L : List String) (ws0 : WS) (k : String)
    (hk : (Dict.get? fixed_wires k).isSome) :
    Dict.get?
      (L.foldl
        (fun ws wire =>
          if Dict.contains fixed_wires wire then ws
          else Dict.insert ws wire c) ws0) k = Dict.get? ws0 k := by
  induction L generalizing ws0 with
  | nil => rfl
  | cons w L ih =>
    simp only [List.foldl_cons]
    by_cases hw : Dict.contains fixed_wires w = true
    · rw [if_pos hw]
      exact ih ws0
    · have hkw : k ≠ w := by
        intro h
        subst h
        exact hw (by simpa [Dict.contains] using hk)
      rw [if_neg hw, ih, Dict.get?_insert_ne ws0 w k c hkw]

/-- Per-group resolution preserves the lookup of any fixed wire. -/
theorem processGroup_fixed (fixed_wires ws : WS) (g : List String)
    (k : String) (hk : (Dict.get? fixed_wires k).isSome) :
    Dict.get? (processGroup fixed_wires ws g) k = Dict.get? ws k := by
  unfold processGroup
  cases collectValues fixed_wires ws g with
  | nil => rfl
  | cons v vs =>
    by_cases hc : 1 < ((v :: vs).dedup).length
    · simp only [hc, if_pos]
      exact get?_foldl_guarded fixed_wires FLOATING g ws k hk
    · simp only [hc, if_neg, not_false_iff]
      exact get?_foldl_guarded fixed_wires v g ws k hk

/-- The whole group-resolution fold preserves fixed-wire lookups. -/
theorem processGroups_fixed (fixed_wires : WS) (groups : List (List String))
    (ws : WS) (k : String) (hk : (Dict.get? fixed_wires k).isSome) :
    Dict.get? (groups.foldl (processGroup fixed_wires) ws) k =
      Dict.get? ws k := by
  induction groups generalizing ws with
  | nil => rfl
  | cons g groups ih =>
    simp only [List.foldl_cons]
    rw [ih, processGroup_fixed fixed_wires ws g k hk]

/-- The final fill step preserves any key that already has a value. -/
theorem get?_fill_preserved (L : List String) (ws : WS) (k : String)
    (v : WireState) (hv : Dict.get? ws k = some v) :
    Dict.get?
      (L.foldl
        (fun ws wire =>
          if Dict.contains ws wire then ws
          else Dict.insert ws wire FLOATING) ws) k = some v := by
  induction L generalizing ws with
  | nil => exact hv
  | cons w L ih =>
    simp only [List.foldl_cons]
    by_cases hw : Dict.contains ws w = true
    · rw [if_pos hw]
      exact ih ws hv
    · have hkw : k ≠ w := by
        intro h
        subst h
        exact hw (by simp [Dict.contains, hv])
      rw [if_neg hw]
      exact ih _ (by rw [Dict.get?_insert_ne ws w k FLOATING hkw]; exact hv)

/-- Shared helper: every write of the resolver is guarded by
`wire not in fixed_wires`, and the final fill only touches absent keys,
so a fixed wire keeps exactly its fixed value. -/
theorem propagate_fixed_value (relays : List Relay)
    (relay_states : RS) (fixed_wires : WS) (w : String) (v : WireState)
    (hw : Dict.get? fixed_wires w = some v) :
    Dict.get? (propagate_signals relays relay_states fixed_wires) w =
      some v := by
  unfold propagate_signals
  apply get?_fill_preserved
  rw [processGroups_fixed fixed_wires _ fixed_wires w (by simp [hw])]
  exact hw

/-- C8: fixed wires are authoritative.  Every wire present in
`fixed_wires` is mapped by `propagate_signals` to exactly its fixed
value, whatever the relays, committed positions, and conflicts in its
connection group. -/
theorem C8_fixed_wires_authoritative (relays : List Relay)
    (relay_states : RS) (fixed_wires : WS) (w : String) (v : WireState)
    (hw : Dict.get? fixed_wires w = some v) :
    Dict.get? (propagate_signals relays relay_states fixed_wires) w =
      some v :=
  propagate_fixed_value relays relay_states fixed_wires w v hw

/-- Witness for C8: `VCC` is a fixed wire inside the shorted group
`{VCC, GND, Out}` of the race circuit with both relays `ON`, and keeps
its asserted `HIGH`. -/
theorem C8_witness :
    Dict.get? raceFixed "VCC" = some HIGH ∧
    Dict.get? (propagate_signals race_condition_circuit bothOn raceFixed)
      "VCC" = some HIGH := by
  refine ⟨by decide, ?_⟩
  exact C8_fixed_wires_authoritative race_condition_circuit bothOn raceFixed
    "VCC" HIGH (by decide)

/-! ### Missing relay identities (C7) -/

/-- C7 amended: requesting the legal transitions of a relay identity not
present in the topology returns the empty transition list — the lookup
`next((r for r in relays if r.name == relay_name), None)` yields `None`
and the function returns `[]` instead of raising any NotFound error. -/
theorem C7_amended_missing_relay_empty (relay_name : String)
    (relays : List Relay) (relay_states : RS) (wire_states : WS)
    (h : ∀ r ∈ relays, r.name ≠ relay_name) :
    get_relay_transitions relay_name relays relay_states wire_states = [] := by
  unfold get_relay_transitions
  have hf : relays.find? (fun r => r.name == relay_name) = none := by
    rw [List.find?_eq_none]
    intro r hr
    simpa using h r hr
  rw [hf]

/-- Witness for C7: the identity `Ghost` is absent from the inverter
topology and the targeted transition request returns `[]`. -/
theorem C7_amended_witness :
    get_relay_transitions "Ghost" inverter_circuit []
      (propagate_signals inverter_circuit [] invLow) = [] := by
  exact C7_amended_missing_relay_empty "Ghost" inverter_circuit []
    (propagate_signals inverter_circuit [] invLow) (by decide)

end Relays

namespace Relays

/-! ### Instability detection (C5) -/

/-- The loop body appends the relay's name exactly when `unstableNow`
holds. -/
theorem mem_unstableStep (relay_states : RS) (wire_states : WS)
    (acc : List String) (relay : Relay) (n : String) :
    n ∈ unstableStep relay_states wire_states acc relay ↔
      n ∈ acc ∨ (relay.name = n ∧ unstableNow relay_states wire_states relay) := by
  simp only [unstableStep]
  by_cases h1 : (Dict.getD wire_states relay.coil_a FLOATING = HIGH ∧
      Dict.getD wire_states relay.coil_b FLOATING = LOW) ∧
      Dict.getD relay_states relay.name RelayPosition.OFF ≠ RelayPosition.ON
  · rw [if_pos h1]
    simp only [List.mem_append, List.mem_singleton]
    constructor
    · rintro (ha | he)
      · exact Or.inl ha
      · exact Or.inr ⟨he.symm, Or.inl ⟨⟨h1.1.1, h1.1.2⟩, h1.2⟩⟩
    · rintro (ha | ⟨he, _⟩)
      · exact Or.inl ha
      · exact Or.inr he.symm
  · rw [if_neg h1]
    by_cases h2 : ¬(Dict.getD wire_states relay.coil_a FLOATING = HIGH ∧
        Dict.getD wire_states relay.coil_b FLOATING = LOW) ∧
        Dict.getD relay_states relay.name RelayPosition.OFF ≠ RelayPosition.OFF
    · rw [if_pos h2]
      simp only [List.mem_append, List.mem_singleton]
      constructor
      · rintro (ha | he)
        · exact Or.inl ha
        · exact Or.inr ⟨he.symm, Or.inr (Or.inl ⟨h2.1, h2.2⟩)⟩
      · rintro (ha | ⟨he, _⟩)
        · exact Or.inl ha
        · exact Or.inr he.symm
    · rw [if_neg h2]
      by_cases h3 : Dict.getD relay_states relay.name RelayPosition.OFF =
          RelayPosition.SWITCHING
      · rw [if_pos h3]
        simp only [List.mem_append, List.mem_singleton]
        constructor
        · rintro (ha | he)
          · exact Or.inl ha
          · exact Or.inr ⟨he.symm, Or.inr (Or.inr h3)⟩
        · rintro (ha | ⟨he, _⟩)
          · exact Or.inl ha
          · exact Or.inr he.symm
      · rw [if_neg h3]
        constructor
        · exact Or.inl
        · rintro (ha | ⟨he, hP⟩)
          · exact ha
          · exfalso
            rcases hP with hA | hB | hC
            · exact h1 ⟨⟨hA.1.1, hA.1.2⟩, hA.2⟩
            · exact h2 ⟨hB.1, hB.2⟩
            · exact h3 hC

/-- Membership in the instability fold. -/
theorem mem_unstable_foldl (relays : List Relay) (relay_states : RS)
    (wire_states : WS) (acc : List String) (n : String) :
    n ∈ relays.foldl (unstableStep relay_states wire_states) acc ↔
      n ∈ acc ∨ ∃ r ∈ relays, r.name = n ∧
        unstableNow relay_states wire_states r := by
  induction relays generalizing acc with
  | nil => simp
  | cons r relays ih =>
    rw [List.foldl_cons, ih, mem_unstableStep]
    constructor
    · rintro ((ha | hr) | ⟨r', hr', hp⟩)
      · exact Or.inl ha
      · exact Or.inr ⟨r, List.mem_cons_self r relays, hr⟩
      · exact Or.inr ⟨r', List.mem_cons_of_mem r hr', hp⟩
    · rintro (ha | ⟨r', hr', hp⟩)
      · exact Or.inl (Or.inl ha)
      · rcases List.mem_cons.mp hr' with h | h
        · subst h
          exact Or.inl (Or.inr hp)
        · exact Or.inr ⟨r', h, hp⟩

/-- A name is reported unstable iff some relay of that name satisfies
`unstableNow`. -/
theorem mem_get_unstable_relays (relays : List Relay) (relay_states : RS)
    (wire_states : WS) (n : String) :
    n ∈ get_unstable_relays relays relay_states wire_states ↔
      ∃ r ∈ relays, r.name = n ∧ unstableNow relay_states wire_states r := by
  unfold get_unstable_relays
  rw [List.mem_dedup, mem_unstable_foldl]
  simp

/-- The loop condition matches the specification's disagreement form. -/
theorem unstableNow_iff (relay_states : RS) (wire_states : WS)
    (relay : Relay) :
    unstableNow relay_states wire_states relay ↔
      (coilEnergized wire_states relay ∧
        Dict.getD relay_states relay.name RelayPosition.OFF =
          RelayPosition.OFF) ∨
      (¬coilEnergized wire_states relay ∧
        Dict.getD relay_states relay.name RelayPosition.OFF =
          RelayPosition.ON) ∨
      Dict.getD relay_states relay.name RelayPosition.OFF =
        RelayPosition.SWITCHING := by
  unfold unstableNow
  by_cases he : coilEnergized wire_states relay
  · cases hp : Dict.getD relay_states relay.name RelayPosition.OFF
    all_goals simp [he, hp]
  · cases hp : Dict.getD relay_states relay.name RelayPosition.OFF
    all_goals simp [he, hp]

/-- C5: a relay of the topology is reported by `get_unstable_relays`
iff its committed position disagrees with its coil's current energization
(`OFF` while energized, or `ON` while not energized) or it is currently
`SWITCHING`, where the coil is energized iff `coil_a` reads `HIGH` and
`coil_b` reads `LOW` (any other combination counts as not energized).
Relay names are assumed pairwise distinct, since the code identifies
relays in this set by name. -/
theorem C5_unstable_iff (relays : List Relay) (relay_states : RS)
    (wire_states : WS) (r : Relay) (hr : r ∈ relays)
    (hnames : (relays.map Relay.name).Nodup) :
    r.name ∈ get_unstable_relays relays relay_states wire_states ↔
      (coilEnergized wire_states r ∧
        Dict.getD relay_states r.name RelayPosition.OFF =
          RelayPosition.OFF) ∨
      (¬coilEnergized wire_states r ∧
        Dict.getD relay_states r.name RelayPosition.OFF =
          RelayPosition.ON) ∨
      Dict.getD relay_states r.name RelayPosition.OFF =
        RelayPosition.SWITCHING := by
  rw [mem_get_unstable_relays]
  constructor
  · rintro ⟨r', hr', hname, hP⟩
    have : r' = r := List.inj_on_of_nodup_map hnames hr' hr hname
    subst this
    exact (unstableNow_iff relay_states wire_states r').mp hP
  · intro h
    exact ⟨r, hr, rfl, (unstableNow_iff relay_states wire_states r).mpr h⟩

/-- Witness for C5: in the race circuit under its inputs, `Path1_High`
is energized while still `OFF`, hence unstable. -/
theorem C5_witness :
    ("Path1_High" ∈ get_unstable_relays race_condition_circuit [] raceFixed ↔
      (coilEnergized raceFixed
          { name := "Path1_High", coil_a := "Trigger", coil_b := "GND",
            comm := "VCC", no := "Out" } ∧
        Dict.getD ([] : RS) "Path1_High" RelayPosition.OFF =
          RelayPosition.OFF) ∨
      (¬coilEnergized raceFixed
          { name := "Path1_High", coil_a := "Trigger", coil_b := "GND",
            comm := "VCC", no := "Out" } ∧
        Dict.getD ([] : RS) "Path1_High" RelayPosition.OFF =
          RelayPosition.ON) ∨
      Dict.getD ([] : RS) "Path1_High" RelayPosition.OFF =
        RelayPosition.SWITCHING) ∧
    "Path1_High" ∈ get_unstable_relays race_condition_circuit [] raceFixed := by
  constructor
  · exact C5_unstable_iff race_condition_circuit [] raceFixed
      { name := "Path1_High", coil_a := "Trigger", coil_b := "GND",
        comm := "VCC", no := "Out" } (by decide) (by decide)
  · decide

end Relays

namespace Relays

/-! ### The transition model and exploration paths (C4, C6) -/

/-- Shape of the legal transitions: `SWITCHING` is the only move out of
`OFF` or `ON`, and from `SWITCHING` the only moves are `ON` or `OFF`. -/
theorem transitions_shape (relay_name : String) (relays : List Relay)
    (relay_states : RS) (wire_states : WS) (pos : RelayPosition)
    (h : pos ∈ get_relay_transitions relay_name relays relay_states
      wire_states) :
    (Dict.getD relay_states relay_name RelayPosition.OFF =
        RelayPosition.OFF → pos = RelayPosition.SWITCHING) ∧
    (Dict.getD relay_states relay_name RelayPosition.OFF =
        RelayPosition.ON → pos = RelayPosition.SWITCHING) ∧
    (Dict.getD relay_states relay_name RelayPosition.OFF =
        RelayPosition.SWITCHING →
      pos = RelayPosition.ON ∨ pos = RelayPosition.OFF) := by
  simp only [get_relay_transitions] at h
  split at h
  · cases h
  · split at h
    · rename_i hcur
      split at h
      · have hpos : pos = RelayPosition.SWITCHING := by simpa using h
        refine ⟨fun _ => hpos, fun hc => ?_, fun hc => ?_⟩
        · rw [hcur] at hc
          exact RelayPosition.noConfusion hc
        · rw [hcur] at hc
          exact RelayPosition.noConfusion hc
      · cases h
    · rename_i hcur
      split at h
      · have hpos : pos = RelayPosition.SWITCHING := by simpa using h
        refine ⟨fun hc => ?_, fun _ => hpos, fun hc => ?_⟩
        · rw [hcur] at hc
          exact RelayPosition.noConfusion hc
        · rw [hcur] at hc
          exact RelayPosition.noConfusion hc
      · cases h
    · rename_i hcur
      refine ⟨fun hc => ?_, fun hc => ?_, fun _ => ?_⟩
      · rw [hcur] at hc
        exact RelayPosition.noConfusion hc
      · rw [hcur] at hc
        exact RelayPosition.noConfusion hc
      · split at h
        · exact Or.inl (by simpa using h)
        · exact Or.inr (by simpa using h)

/-- Committing one legal transition never moves any relay directly
between `OFF` and `ON`. -/
theorem step_noFlip (relay_name : String) (new_position : RelayPosition)
    (relays : List Relay) (st : RS) (ws : WS) (a b : RS × WS)
    (ha : a.1 = st) (hb : b.1 = Dict.insert st relay_name new_position)
    (h : new_position ∈ get_relay_transitions relay_name relays st ws) :
    noFlip a b := by
  intro n
  have hshape := transitions_shape relay_name relays st ws new_position h
  by_cases hn : n = relay_name
  · subst hn
    have hbn : snapPos b n = new_position := by
      simp [snapPos, hb, Dict.getD_insert_self]
    have han : snapPos a n = Dict.getD st n RelayPosition.OFF := by
      simp [snapPos, ha]
    constructor
    · rintro ⟨h1, h2⟩
      rw [han] at h1
      rw [hbn] at h2
      rw [hshape.1 h1] at h2
      exact RelayPosition.noConfusion h2
    · rintro ⟨h1, h2⟩
      rw [han] at h1
      rw [hbn] at h2
      rw [hshape.2.1 h1] at h2
      exact RelayPosition.noConfusion h2
  · have heq : snapPos b n = snapPos a n := by
      simp only [snapPos, ha, hb]
      exact Dict.getD_insert_ne st relay_name n new_position _ hn
    constructor
    · rintro ⟨h1, h2⟩
      rw [heq, h1] at h2
      exact RelayPosition.noConfusion h2
    · rintro ⟨h1, h2⟩
      rw [heq, h1] at h2
      exact RelayPosition.noConfusion h2

/-- Dropping the last element of a cons with a nonempty tail. -/
theorem dropLast_cons_ne {α : Type} (a : α) {l : List α} (h : l ≠ []) :
    (a :: l).dropLast = a :: l.dropLast := by
  cases l with
  | nil => exact absurd rfl h
  | cons b t => rfl

/-- The fallback of `getLastD` is irrelevant on a nonempty list. -/
theorem getLastD_irrel {α : Type} {l : List α} (h : l ≠ []) (x y : α) :
    l.getLastD x = l.getLastD y := by
  cases l with
  | nil => exact absurd rfl h
  | cons b t => rfl

/-- `getLastD` of a cons with a nonempty tail. -/
theorem getLastD_cons_ne {α : Type} (a : α) {l : List α} (h : l ≠ [])
    (x : α) : (a :: l).getLastD x = l.getLastD x := by
  cases l with
  | nil => exact absurd rfl h
  | cons b t => rfl

/-- Structural facts about every path returned by
`explore_all_sequences`: the path is nonempty and starts at the initial
configuration; no non-terminal snapshot's cycle key lies in the incoming
`visited` set; the non-terminal cycle keys are pairwise distinct; the
terminal snapshot is explained by a seen key, an exhausted depth, or an
empty unstable set; every non-terminal snapshot has a nonempty unstable
set; the path takes at most `max_depth` steps; and consecutive snapshots
never flip a relay directly between `OFF` and `ON`. -/
theorem explore_facts (relays : List Relay) (fw : WS) :
    ∀ (d : Nat) (st : RS) (visited : List RS) (p : List (RS × WS)),
      p ∈ explore_all_sequences relays fw st visited d →
      p ≠ [] ∧
      (p.headD ([], [])).1 = st ∧
      (∀ s ∈ p.dropLast, stateKey s.1 ∉ visited) ∧
      (p.dropLast.map (fun s => stateKey s.1)).Nodup ∧
      (stateKey (p.getLastD ([], [])).1 ∈ visited ∨
        stateKey (p.getLastD ([], [])).1 ∈
          p.dropLast.map (fun s => stateKey s.1) ∨
        d < p.length ∨
        get_unstable_relays relays (p.getLastD ([], [])).1
          (p.getLastD ([], [])).2 = []) ∧
      (∀ s ∈ p.dropLast,
        get_unstable_relays relays s.1 s.2 ≠ []) ∧
      p.length ≤ d + 1 ∧
      List.Chain' noFlip p := by
  intro d
  induction d with
  | zero =>
    intro st visited p hp
    have hp1 : p = [(st, propagate_signals relays st fw)] := by
      simpa [explore_all_sequences] using hp
    subst hp1
    refine ⟨by simp, rfl, by simp, by simp, ?_, by simp, by simp,
      List.chain'_singleton _⟩
    exact Or.inr (Or.inr (Or.inl (by simp)))
  | succ d ih =>
    intro st visited p hp
    simp only [explore_all_sequences] at hp
    by_cases hv : stateKey st ∈ visited
    · rw [if_pos hv] at hp
      have hp1 : p = [(st, propagate_signals relays st fw)] := by
        simpa using hp
      subst hp1
      refine ⟨by simp, rfl, by simp, by simp, Or.inl hv, by simp,
        by simp, List.chain'_singleton _⟩
    · rw [if_neg hv] at hp
      by_cases hu : get_unstable_relays relays st
          (propagate_signals relays st fw) = []
      · rw [if_pos hu] at hp
        have hp1 : p = [(st, propagate_signals relays st fw)] := by
          simpa using hp
        subst hp1
        refine ⟨by simp, rfl, by simp, by simp,
          Or.inr (Or.inr (Or.inr hu)), by simp, by simp,
          List.chain'_singleton _⟩
      · rw [if_neg hu] at hp
        rcases List.mem_flatMap.mp hp with ⟨name, hname, hp2⟩
        rcases List.mem_flatMap.mp hp2 with ⟨pos, hpos, hp3⟩
        rcases List.mem_map.mp hp3 with ⟨path1, hpath1, rfl⟩
        obtain ⟨hne, hhead, hnotvis, hnodup, hterm, hunst, hlen, hchain⟩ :=
          ih _ _ _ hpath1
        have hdrop : ((st, propagate_signals relays st fw) :: path1).dropLast
            = (st, propagate_signals relays st fw) :: path1.dropLast :=
          dropLast_cons_ne _ hne
        have hlast : ((st, propagate_signals relays st fw) :: path1).getLastD
            (([], []) : RS × WS) = path1.getLastD (([], []) : RS × WS) :=
          getLastD_cons_ne _ hne _
        refine ⟨by simp, rfl, ?_, ?_, ?_, ?_, ?_, ?_⟩
        · rw [hdrop]
          intro s hs
          rcases List.mem_cons.mp hs with h | h
          · rw [h]
            exact hv
          · intro hcon
            exact hnotvis s h (List.mem_cons_of_mem _ hcon)
        · rw [hdrop]
          simp only [List.map_cons, List.nodup_cons]
          refine ⟨?_, hnodup⟩
          intro hmem
          rcases List.mem_map.mp hmem with ⟨s, hs, hkey⟩
          exact hnotvis s hs (by rw [hkey]; exact List.mem_cons_self _ _)
        · rw [hlast, hdrop]
          rcases hterm with h | h | h | h
          · rcases List.mem_cons.mp h with h' | h'
            · refine Or.inr (Or.inl ?_)
              simp only [List.map_cons]
              rw [h']
              exact List.mem_cons_self _ _
            · exact Or.inl h'
          · refine Or.inr (Or.inl ?_)
            simp only [List.map_cons]
            exact List.mem_cons_of_mem _ h
          · refine Or.inr (Or.inr (Or.inl ?_))
            simp only [List.length_cons]
            omega
          · exact Or.inr (Or.inr (Or.inr h))
        · rw [hdrop]
          intro s hs
          rcases List.mem_cons.mp hs with h | h
          · rw [h]
            exact hu
          · exact hunst s h
        · simp only [List.length_cons]
          omega
        · rw [List.chain'_cons']
          refine ⟨?_, hchain⟩
          intro b hb
          rcases path1 with _ | ⟨b0, path2⟩
          · exact absurd rfl hne
          · have hb0 : b0 = b := by
              simpa using hb
            subst hb0
            exact step_noFlip name pos relays st
              (propagate_signals relays st fw)
              (st, propagate_signals relays st fw) b0 rfl hhead hpos

end Relays

namespace Relays

/-- C4 amended: a path returned by `explore_all_sequences` is terminated
exactly when the current literal relay-states key (`str(sorted(...))`,
with absent entries NOT normalized to `OFF`) has already been seen
earlier on that same path, or `max_depth` has been exhausted, or no relay
is unstable, with the current snapshot as the path's terminal state; no
returned path repeats the same literal key at two distinct non-terminal
positions (repeats of the same OFF-defaulted configuration do occur, see
the counterexample). -/
theorem C4_amended_literal_key_termination (relays : List Relay) (fw : WS)
    (st : RS) (d : Nat) (p : List (RS × WS))
    (hp : p ∈ explore_all_sequences relays fw st [] d) :
    (p.dropLast.map (fun s => stateKey s.1)).Nodup ∧
    (stateKey (p.getLastD ([], [])).1 ∈
        p.dropLast.map (fun s => stateKey s.1) ∨
      d < p.length ∨
      get_unstable_relays relays (p.getLastD ([], [])).1
        (p.getLastD ([], [])).2 = []) ∧
    (∀ s ∈ p.dropLast, get_unstable_relays relays s.1 s.2 ≠ []) ∧
    p.length ≤ d + 1 := by
  obtain ⟨_, _, _, h4, h5, h6, h7, _⟩ := explore_facts relays fw d st [] p hp
  refine ⟨h4, ?_, h6, h7⟩
  rcases h5 with h | h | h | h
  · cases h
  · exact Or.inl h
  · exact Or.inr (Or.inl h)
  · exact Or.inr (Or.inr h)

/-- Witness for C4 amended: the inverter with `In = LOW` yields a single
stable-terminated one-snapshot path. -/
theorem C4_amended_witness :
    (((explore_all_sequences inverter_circuit invLow [] [] 100).headD
        []).dropLast.map (fun s => stateKey s.1)).Nodup ∧
    (stateKey (((explore_all_sequences inverter_circuit invLow [] []
          100).headD []).getLastD ([], [])).1 ∈
        ((explore_all_sequences inverter_circuit invLow [] [] 100).headD
          []).dropLast.map (fun s => stateKey s.1) ∨
      100 < ((explore_all_sequences inverter_circuit invLow [] []
        100).headD []).length ∨
      get_unstable_relays inverter_circuit
        (((explore_all_sequences inverter_circuit invLow [] [] 100).headD
          []).getLastD ([], [])).1
        (((explore_all_sequences inverter_circuit invLow [] [] 100).headD
          []).getLastD ([], [])).2 = []) ∧
    (∀ s ∈ ((explore_all_sequences inverter_circuit invLow [] []
        100).headD []).dropLast,
      get_unstable_relays inverter_circuit s.1 s.2 ≠ []) ∧
    ((explore_all_sequences inverter_circuit invLow [] [] 100).headD
      []).length ≤ 100 + 1 :=
  C4_amended_literal_key_termination inverter_circuit invLow [] 100
    ((explore_all_sequences inverter_circuit invLow [] [] 100).headD [])
    (by decide)

/-- C6: break-before-make.  In every path produced by
`explore_all_sequences`, no two consecutive snapshots move any relay's
position directly from `OFF` to `ON` or from `ON` to `OFF`; and
`get_relay_transitions` only ever offers `SWITCHING` out of `OFF` or
`ON`, and only `ON`/`OFF` out of `SWITCHING`. -/
theorem C6_break_before_make (relays : List Relay) (fw : WS) (st : RS)
    (visited : List RS) (d : Nat) (p : List (RS × WS))
    (hp : p ∈ explore_all_sequences relays fw st visited d) :
    List.Chain' noFlip p ∧
    ∀ (relay_name : String) (st2 : RS) (ws : WS) (pos : RelayPosition),
      pos ∈ get_relay_transitions relay_name relays st2 ws →
      ((Dict.getD st2 relay_name RelayPosition.OFF = RelayPosition.OFF ∨
          Dict.getD st2 relay_name RelayPosition.OFF = RelayPosition.ON) →
        pos = RelayPosition.SWITCHING) ∧
      (Dict.getD st2 relay_name RelayPosition.OFF =
          RelayPosition.SWITCHING →
        pos = RelayPosition.ON ∨ pos = RelayPosition.OFF) := by
  refine ⟨(explore_facts relays fw d st visited p hp).2.2.2.2.2.2.2, ?_⟩
  intro relay_name st2 ws pos hpos
  have hs := transitions_shape relay_name relays st2 ws pos hpos
  refine ⟨?_, hs.2.2⟩
  rintro (h | h)
  · exact hs.1 h
  · exact hs.2.1 h

/-- Witness for C6: the inverter path for `In = HIGH`
(`OFF → SWITCHING → ON`) never flips directly. -/
theorem C6_witness :
    List.Chain' noFlip
      ((explore_all_sequences inverter_circuit invHigh [] [] 100).headD
        []) :=
  (C6_break_before_make inverter_circuit invHigh [] [] 100
    ((explore_all_sequences inverter_circuit invHigh [] [] 100).headD [])
    (by decide)).1

end Relays

namespace Relays

/-! ### Set-list and enumeration lemmas (towards C9) -/

theorem mem_sinsert (x y : String) (s : List String) :
    y ∈ sinsert x s ↔ y = x ∨ y ∈ s := by
  unfold sinsert
  by_cases h : x ∈ s
  · rw [if_pos h]
    constructor
    · exact Or.inr
    · rintro (rfl | hy)
      · exact h
      · exact hy
  · rw [if_neg h]
    simp [List.mem_append, or_comm]

theorem mem_sunion (a b : List String) (y : String) :
    y ∈ sunion a b ↔ y ∈ a ∨ y ∈ b := by
  unfold sunion
  induction b generalizing a with
  | nil => simp
  | cons x b ih =>
    rw [List.foldl_cons, ih, mem_sinsert]
    constructor
    · rintro ((rfl | h) | h)
      · exact Or.inr (List.mem_cons_self _ _)
      · exact Or.inl h
      · exact Or.inr (List.mem_cons_of_mem _ h)
    · rintro (h | h)
      · exact Or.inl (Or.inr h)
      · rcases List.mem_cons.mp h with rfl | h
        · exact Or.inl (Or.inl rfl)
        · exact Or.inr h

theorem overlaps_iff (a b : List String) :
    overlaps a b = true ↔ ∃ x, x ∈ a ∧ x ∈ b := by
  induction a with
  | nil => simp [overlaps]
  | cons x a ih =>
    unfold overlaps
    by_cases h : x ∈ b
    · rw [if_pos h]
      simp only [true_iff]
      exact ⟨x, List.mem_cons_self _ _, h⟩
    · rw [if_neg h, ih]
      constructor
      · rintro ⟨y, hy, hyb⟩
        exact ⟨y, List.mem_cons_of_mem _ hy, hyb⟩
      · rintro ⟨y, hy, hyb⟩
        rcases List.mem_cons.mp hy with rfl | hy
        · exact absurd hyb h
        · exact ⟨y, hy, hyb⟩

theorem overlaps_false_symm {a b : List String}
    (h : overlaps a b = false) : overlaps b a = false := by
  rw [← Bool.not_eq_true] at h ⊢
  rw [overlaps_iff] at h ⊢
  rintro ⟨x, hxb, hxa⟩
  exact h ⟨x, hxa, hxb⟩

theorem length_withIdx {α : Type} (n : Nat) (l : List α) :
    (withIdx n l).length = l.length := by
  induction l generalizing n with
  | nil => rfl
  | cons a l ih => simp [withIdx, ih]

theorem map_snd_withIdx {α : Type} (n : Nat) (l : List α) :
    (withIdx n l).map Prod.snd = l := by
  induction l generalizing n with
  | nil => rfl
  | cons a l ih => simp [withIdx, ih]

theorem le_of_mem_withIdx {α : Type} {n : Nat} {l : List α}
    {p : Nat × α} (h : p ∈ withIdx n l) : n ≤ p.1 := by
  induction l generalizing n with
  | nil => cases h
  | cons a l ih =>
    rcases List.mem_cons.mp h with rfl | h
    · exact Nat.le_refl n
    · exact Nat.le_trans (Nat.le_succ n) (ih h)

theorem nodup_fst_withIdx {α : Type} (n : Nat) (l : List α) :
    ((withIdx n l).map Prod.fst).Nodup := by
  induction l generalizing n with
  | nil => exact List.nodup_nil
  | cons a l ih =>
    simp only [withIdx, List.map_cons, List.nodup_cons]
    refine ⟨?_, ih (n + 1)⟩
    intro hmem
    rcases List.mem_map.mp hmem with ⟨p, hp, hfst⟩
    have := le_of_mem_withIdx hp
    omega

theorem fst_inj_withIdx {α : Type} {n : Nat} {l : List α}
    {j : Nat} {g g' : α} (h : (j, g) ∈ withIdx n l)
    (h' : (j, g') ∈ withIdx n l) : g = g' := by
  induction l generalizing n with
  | nil => cases h
  | cons a l ih =>
    rcases List.mem_cons.mp h with he | h2
    · rcases List.mem_cons.mp h' with he' | h2'
      · rw [(Prod.mk.injEq _ _ _ _).mp he |>.2,
          (Prod.mk.injEq _ _ _ _).mp he' |>.2]
      · exfalso
        have h1 := (Prod.mk.injEq _ _ _ _).mp he |>.1
        have := le_of_mem_withIdx h2'
        simp only at this
        omega
    · rcases List.mem_cons.mp h' with he' | h2'
      · exfalso
        have h1 := (Prod.mk.injEq _ _ _ _).mp he' |>.1
        have := le_of_mem_withIdx h2
        simp only at this
        omega
      · exact ih h2 h2'

theorem getElem_mem_withIdx {α : Type} (n : Nat) (l : List α) (k : Nat)
    (hk : k < l.length) : (n + k, l[k]) ∈ withIdx n l := by
  induction l generalizing n k with
  | nil => cases hk
  | cons a l ih =>
    cases k with
    | zero => exact List.mem_cons_self _ _
    | succ k =>
      have := ih (n + 1) k (by simpa using hk)
      refine List.mem_cons_of_mem _ ?_
      have harith : n + (k + 1) = (n + 1) + k := by omega
      rw [harith]
      simpa using this

theorem mem_withIdx_snd {α : Type} {n : Nat} {l : List α}
    {p : Nat × α} (h : p ∈ withIdx n l) : p.2 ∈ l := by
  have := map_snd_withIdx n l
  rw [← this]
  exact List.mem_map_of_mem Prod.snd h

theorem exists_withIdx_of_mem {α : Type} {l : List α} {g : α}
    (h : g ∈ l) (n : Nat) : ∃ j, (j, g) ∈ withIdx n l := by
  induction l generalizing n with
  | nil => cases h
  | cons a l ih =>
    rcases List.mem_cons.mp h with rfl | h
    · exact ⟨n, List.mem_cons_self _ _⟩
    · obtain ⟨j, hj⟩ := ih h (n + 1)
      exact ⟨j, List.mem_cons_of_mem _ hj⟩

end Relays

namespace Relays

/-! ### Inner merge loop lemmas -/

theorem innerLoop_flag_mono (i : Nat) (g1 : List String) :
    ∀ (L : List (Nat × List String)) (mg : List String) (used : List Nat),
      (innerLoop i g1 L mg used true).2.2 = true := by
  intro L
  induction L with
  | nil => intro mg used; rfl
  | cons p L ih =>
    intro mg used
    rcases p with ⟨j, g2⟩
    unfold innerLoop
    by_cases h : i ≠ j ∧ j ∉ used ∧ overlaps g1 g2 = true
    · rw [if_pos h]
      exact ih _ _
    · rw [if_neg h]
      exact ih _ _

theorem innerLoop_false (i : Nat) (g1 : List String) :
    ∀ (L : List (Nat × List String)) (mg : List String) (used : List Nat)
      (fl : Bool),
      (innerLoop i g1 L mg used fl).2.2 = false →
      (innerLoop i g1 L mg used fl).1 = mg ∧
      (innerLoop i g1 L mg used fl).2.1 = used ∧
      fl = false ∧
      ∀ p ∈ L, ¬(i ≠ p.1 ∧ p.1 ∉ used ∧ overlaps g1 p.2 = true) := by
  intro L
  induction L with
  | nil =>
    intro mg used fl hfl
    exact ⟨rfl, rfl, hfl, by simp⟩
  | cons p L ih =>
    intro mg used fl hfl
    rcases p with ⟨j, g2⟩
    unfold innerLoop at hfl ⊢
    by_cases h : i ≠ j ∧ j ∉ used ∧ overlaps g1 g2 = true
    · rw [if_pos h] at hfl
      rw [innerLoop_flag_mono] at hfl
      cases hfl
    · rw [if_neg h] at hfl ⊢
      obtain ⟨h1, h2, h3, h4⟩ := ih mg used fl hfl
      refine ⟨h1, h2, h3, ?_⟩
      intro q hq
      rcases List.mem_cons.mp hq with rfl | hq
      · exact h
      · exact h4 q hq

theorem innerLoop_facts (i : Nat) (g1 : List String) :
    ∀ (L : List (Nat × List String)) (mg : List String) (used : List Nat)
      (fl : Bool),
      (∀ x ∈ mg, x ∈ (innerLoop i g1 L mg used fl).1) ∧
      (∀ j ∈ used, j ∈ (innerLoop i g1 L mg used fl).2.1) ∧
      (∀ j ∈ (innerLoop i g1 L mg used fl).2.1,
        j ∈ used ∨ (j ≠ i ∧ j ∉ used ∧
          ∃ g2, (j, g2) ∈ L ∧ ∀ x ∈ g2, x ∈ (innerLoop i g1 L mg used fl).1)) ∧
      ((innerLoop i g1 L mg used fl).2.2 = true →
        fl = true ∨ ∃ j, j ∉ used ∧ j ∈ (innerLoop i g1 L mg used fl).2.1) := by
  intro L
  induction L with
  | nil =>
    intro mg used fl
    exact ⟨fun x hx => hx, fun j hj => hj,
      fun j hj => Or.inl hj, fun h => Or.inl h⟩
  | cons p L ih =>
    intro mg used fl
    rcases p with ⟨j0, g2⟩
    unfold innerLoop
    by_cases h : i ≠ j0 ∧ j0 ∉ used ∧ overlaps g1 g2 = true
    · rw [if_pos h]
      obtain ⟨ih1, ih2, ih3, _⟩ := ih (sunion mg g2) (j0 :: used) true
      refine ⟨?_, ?_, ?_, ?_⟩
      · intro x hx
        exact ih1 x ((mem_sunion mg g2 x).mpr (Or.inl hx))
      · intro j hj
        exact ih2 j (List.mem_cons_of_mem _ hj)
      · intro j hj
        rcases ih3 j hj with hj2 | ⟨hne, hnotin, g2', hmem, hsub⟩
        · rcases List.mem_cons.mp hj2 with rfl | hj3
          · refine Or.inr ⟨fun he => h.1 he.symm, h.2.1, g2,
              List.mem_cons_self _ _, ?_⟩
            intro x hx
            exact ih1 x ((mem_sunion mg g2 x).mpr (Or.inr hx))
          · exact Or.inl hj3
        · refine Or.inr ⟨hne, fun hc => hnotin (List.mem_cons_of_mem _ hc),
            g2', List.mem_cons_of_mem _ hmem, hsub⟩
      · intro _
        refine Or.inr ⟨j0, h.2.1, ?_⟩
        exact ih2 j0 (List.mem_cons_self _ _)
    · rw [if_neg h]
      obtain ⟨ih1, ih2, ih3, ih4⟩ := ih mg used fl
      refine ⟨ih1, ih2, ?_, ?_⟩
      · intro j hj
        rcases ih3 j hj with hj2 | ⟨hne, hnotin, g2', hmem, hsub⟩
        · exact Or.inl hj2
        · exact Or.inr ⟨hne, hnotin, g2', List.mem_cons_of_mem _ hmem, hsub⟩
      · exact ih4

theorem innerLoop_clique (E : String → String → Prop) (hE : Transitive E)
    (i : Nat) (g1 : List String) :
    ∀ (L : List (Nat × List String)) (mg : List String) (used : List Nat)
      (fl : Bool),
      (∀ x ∈ g1, x ∈ mg) →
      (∀ a ∈ mg, ∀ b ∈ mg, E a b) →
      (∀ p ∈ L, ∀ a ∈ p.2, ∀ b ∈ p.2, E a b) →
      ∀ a ∈ (innerLoop i g1 L mg used fl).1,
        ∀ b ∈ (innerLoop i g1 L mg used fl).1, E a b := by
  intro L
  induction L with
  | nil =>
    intro mg used fl _ hmg _
    exact hmg
  | cons p L ih =>
    intro mg used fl hg1 hmg hL
    rcases p with ⟨j0, g2⟩
    unfold innerLoop
    by_cases h : i ≠ j0 ∧ j0 ∉ used ∧ overlaps g1 g2 = true
    · rw [if_pos h]
      obtain ⟨c, hcg1, hcg2⟩ := (overlaps_iff g1 g2).mp h.2.2
      have hcmg : c ∈ mg := hg1 c hcg1
      have hg2c : ∀ a ∈ g2, ∀ b ∈ g2, E a b :=
        hL (j0, g2) (List.mem_cons_self _ _)
      refine ih (sunion mg g2) (j0 :: used) true ?_ ?_ ?_
      · intro x hx
        exact (mem_sunion mg g2 x).mpr (Or.inl (hg1 x hx))
      · intro a ha b hb
        rcases (mem_sunion mg g2 a).mp ha with ha2 | ha2 <;>
          rcases (mem_sunion mg g2 b).mp hb with hb2 | hb2
        · exact hmg a ha2 b hb2
        · exact hE (hmg a ha2 c hcmg) (hg2c c hcg2 b hb2)
        · exact hE (hg2c a ha2 c hcg2) (hmg c hcmg b hb2)
        · exact hg2c a ha2 b hb2
      · intro q hq
        exact hL q (List.mem_cons_of_mem _ hq)
    · rw [if_neg h]
      refine ih mg used fl hg1 hmg ?_
      intro q hq
      exact hL q (List.mem_cons_of_mem _ hq)

end Relays

namespace Relays

/-! ### Outer merge loop lemmas -/

theorem filter_length_mono {α : Type} (l : List α) (p q : α → Bool)
    (h : ∀ x ∈ l, q x = true → p x = true) :
    (l.filter q).length ≤ (l.filter p).length := by
  induction l with
  | nil => exact Nat.le_refl 0
  | cons a l ih =>
    have ih2 := ih (fun x hx => h x (List.mem_cons_of_mem _ hx))
    rw [List.filter_cons, List.filter_cons]
    by_cases hq : q a = true
    · have hp : p a = true := h a (List.mem_cons_self _ _) hq
      rw [if_pos hq, if_pos hp]
      simp only [List.length_cons]
      omega
    · rw [if_neg hq]
      by_cases hp : p a = true
      · rw [if_pos hp]
        simp only [List.length_cons]
        omega
      · rw [if_neg hp]
        exact ih2

theorem filter_length_strict {α : Type} (l : List α) (p q : α → Bool)
    (h : ∀ x ∈ l, q x = true → p x = true) (x0 : α) (hx0 : x0 ∈ l)
    (hp0 : p x0 = true) (hq0 : q x0 = false) :
    (l.filter q).length + 1 ≤ (l.filter p).length := by
  induction l with
  | nil => cases hx0
  | cons a l ih =>
    have hmono := filter_length_mono l p q
      (fun x hx => h x (List.mem_cons_of_mem _ hx))
    rw [List.filter_cons, List.filter_cons]
    by_cases hq : q a = true
    · have hp : p a = true := h a (List.mem_cons_self _ _) hq
      have hne : x0 ≠ a := by
        intro he
        rw [he] at hq0
        rw [hq0] at hq
        cases hq
      have hx0' : x0 ∈ l := by
        rcases List.mem_cons.mp hx0 with he | hm
        · exact absurd he hne
        · exact hm
      have := ih (fun x hx => h x (List.mem_cons_of_mem _ hx)) hx0'
      rw [if_pos hq, if_pos hp]
      simp only [List.length_cons]
      omega
    · rw [if_neg hq]
      by_cases hp : p a = true
      · rw [if_pos hp]
        simp only [List.length_cons]
        omega
      · rw [if_neg hp]
        have hp' : p a = false := Bool.not_eq_true _ |>.mp hp
        have hne : x0 ≠ a := by
          intro he
          rw [he] at hp0
          rw [hp0] at hp'
          cases hp'
        have hx0' : x0 ∈ l := by
          rcases List.mem_cons.mp hx0 with he | hm
          · exact absurd he hne
          · exact hm
        exact ih (fun x hx => h x (List.mem_cons_of_mem _ hx)) hx0'

theorem outerLoop_flag_mono (full : List (Nat × List String)) :
    ∀ (rest : List (Nat × List String)) (used : List Nat)
      (acc : List (List String)),
      (outerLoop full rest used acc true).2 = true := by
  intro rest
  induction rest with
  | nil => intro used acc; rfl
  | cons p rest ih =>
    intro used acc
    rcases p with ⟨i, g1⟩
    unfold outerLoop
    by_cases h : i ∈ used
    · rw [if_pos h]
      exact ih _ _
    · rw [if_neg h]
      rw [innerLoop_flag_mono]
      exact ih _ _

theorem outerLoop_acc_mono (full : List (Nat × List String)) :
    ∀ (rest : List (Nat × List String)) (used : List Nat)
      (acc : List (List String)) (fl : Bool),
      ∀ g ∈ acc, g ∈ (outerLoop full rest used acc fl).1 := by
  intro rest
  induction rest with
  | nil => intro used acc fl g hg; exact hg
  | cons p rest ih =>
    intro used acc fl g hg
    rcases p with ⟨i, g1⟩
    unfold outerLoop
    by_cases h : i ∈ used
    · rw [if_pos h]
      exact ih _ _ _ g hg
    · rw [if_neg h]
      exact ih _ _ _ g (List.mem_append_left _ hg)

theorem outerLoop_false (full : List (Nat × List String)) :
    ∀ (rest : List (Nat × List String)) (used : List Nat)
      (acc : List (List String)),
      (∀ j g g', (j, g) ∈ full → (j, g') ∈ full → g = g') →
      ((rest.map Prod.fst).Nodup) →
      (∀ p ∈ rest, p.1 ∉ used) →
      (∀ p ∈ rest, p ∈ full) →
      (outerLoop full rest used acc false).2 = false →
      (outerLoop full rest used acc false).1 = acc ++ rest.map Prod.snd ∧
      ∀ p ∈ rest, ∀ q ∈ full, p.1 ≠ q.1 → q.1 ∉ used →
        overlaps p.2 q.2 = false := by
  intro rest
  induction rest with
  | nil =>
    intro used acc _ _ _ _ _
    exact ⟨by simp [outerLoop], by simp⟩
  | cons p rest ih =>
    intro used acc hfullinj hN hfresh hsub hflag
    rcases p with ⟨i, g1⟩
    have hi : i ∉ used := hfresh (i, g1) (List.mem_cons_self _ _)
    unfold outerLoop at hflag ⊢
    rw [if_neg hi] at hflag ⊢
    have hfl2 : (innerLoop i g1 full g1 used false).2.2 = false := by
      by_contra hne
      rw [Bool.not_eq_false] at hne
      rw [hne, outerLoop_flag_mono] at hflag
      cases hflag
    obtain ⟨hmg, hused, _, hin4⟩ := innerLoop_false i g1 full g1 used false hfl2
    rw [hfl2, hmg, hused] at hflag ⊢
    have hNt : ((rest.map Prod.fst).Nodup) := (List.nodup_cons.mp hN).2
    have hinotin : i ∉ rest.map Prod.fst := (List.nodup_cons.mp hN).1
    have hfresh' : ∀ p ∈ rest, p.1 ∉ i :: used := by
      intro p hp hc
      rcases List.mem_cons.mp hc with he | hm
      · exact hinotin (he ▸ List.mem_map_of_mem Prod.fst hp)
      · exact hfresh p (List.mem_cons_of_mem _ hp) hm
    have hsub' : ∀ p ∈ rest, p ∈ full :=
      fun p hp => hsub p (List.mem_cons_of_mem _ hp)
    obtain ⟨hres, hpair⟩ := ih (i :: used) (acc ++ [g1]) hfullinj hNt
      hfresh' hsub' hflag
    constructor
    · rw [hres]
      simp
    · intro p hp q hq hne hqused
      rcases List.mem_cons.mp hp with rfl | hp2
      · have := hin4 q hq
        cases hov : overlaps g1 q.2 with
        | false => rfl
        | true => exact absurd ⟨hne, hqused, hov⟩ this
      · by_cases hqi : q.1 = i
        · have hq2 : q.2 = g1 := by
            have h1 : (i, q.2) ∈ full := by
              have : q = (q.1, q.2) := rfl
              rw [← hqi]
              exact hq
            exact hfullinj i q.2 g1 h1 (hsub (i, g1) (List.mem_cons_self _ _))
          have hpfull : p ∈ full := hsub' p hp2
          have hpne : i ≠ p.1 := by
            intro he
            exact hinotin (he ▸ List.mem_map_of_mem Prod.fst hp2)
          have hpused : p.1 ∉ used := hfresh p (List.mem_cons_of_mem _ hp2)
          have := hin4 p hpfull
          have hov : overlaps g1 p.2 = false := by
            cases hov : overlaps g1 p.2 with
            | false => rfl
            | true => exact absurd ⟨hpne, hpused, hov⟩ this
          rw [hq2]
          exact overlaps_false_symm hov
        · have hq' : q.1 ∉ i :: used := by
            intro hc
            rcases List.mem_cons.mp hc with he | hm
            · exact hqi he
            · exact hqused hm
          exact hpair p hp2 q hq hne hq'

theorem outerLoop_length (full : List (Nat × List String)) :
    ∀ (rest : List (Nat × List String)) (used : List Nat)
      (acc : List (List String)) (fl : Bool),
      (outerLoop full rest used acc fl).1.length ≤
        acc.length +
          (rest.filter (fun p => decide (p.1 ∉ used))).length := by
  intro rest
  induction rest with
  | nil =>
    intro used acc fl
    simp [outerLoop]
  | cons p rest ih =>
    intro used acc fl
    rcases p with ⟨i, g1⟩
    unfold outerLoop
    by_cases h : i ∈ used
    · rw [if_pos h]
      have := ih used acc fl
      simp only [List.filter_cons, decide_eq_true_eq]
      rw [if_neg (by simpa using h)]
      exact this
    · rw [if_neg h]
      have hused2 := (innerLoop_facts i g1 full g1 used fl).2.1
      have := ih (i :: (innerLoop i g1 full g1 used fl).2.1)
        (acc ++ [(innerLoop i g1 full g1 used fl).1])
        (innerLoop i g1 full g1 used fl).2.2
      have hmono : (rest.filter
          (fun p => decide (p.1 ∉ i :: (innerLoop i g1 full g1 used fl).2.1))).length ≤
          (rest.filter (fun p => decide (p.1 ∉ used))).length := by
        refine filter_length_mono rest _ _ ?_
        intro x _ hx
        simp only [decide_eq_true_eq] at hx ⊢
        intro hc
        exact hx (List.mem_cons_of_mem _ (hused2 x.1 hc))
      simp only [List.filter_cons, decide_eq_true_eq]
      rw [if_pos (by simpa using h)]
      simp only [List.length_append, List.length_cons, List.length_nil]
        at this ⊢
      omega

theorem outerLoop_shrink (full : List (Nat × List String)) :
    ∀ (rest : List (Nat × List String)) (used : List Nat)
      (acc : List (List String)),
      ((rest.map Prod.fst).Nodup) →
      (∀ p ∈ full, p.1 ∈ used ∨ p ∈ rest) →
      (outerLoop full rest used acc false).2 = true →
      (outerLoop full rest used acc false).1.length + 1 ≤
        acc.length +
          (rest.filter (fun p => decide (p.1 ∉ used))).length := by
  intro rest
  induction rest with
  | nil =>
    intro used acc _ _ hflag
    simp only [outerLoop] at hflag
    cases hflag
  | cons p rest ih =>
    intro used acc hN hcover hflag
    rcases p with ⟨i, g1⟩
    have hNt : ((rest.map Prod.fst).Nodup) := (List.nodup_cons.mp hN).2
    have hinotin : i ∉ rest.map Prod.fst := (List.nodup_cons.mp hN).1
    unfold outerLoop at hflag
    by_cases h : i ∈ used
    · rw [if_pos h] at hflag
      have hcover' : ∀ p ∈ full, p.1 ∈ used ∨ p ∈ rest := by
        intro p hp
        rcases hcover p hp with hu | hm
        · exact Or.inl hu
        · rcases List.mem_cons.mp hm with rfl | hm2
          · exact Or.inl h
          · exact Or.inr hm2
      have := ih used acc hNt hcover' hflag
      show (outerLoop full ((i, g1) :: rest) used acc false).1.length + 1 ≤ _
      unfold outerLoop
      rw [if_pos h]
      simp only [List.filter_cons, decide_eq_true_eq]
      rw [if_neg (by simpa using h)]
      exact this
    · rw [if_neg h] at hflag
      show (outerLoop full ((i, g1) :: rest) used acc false).1.length + 1 ≤ _
      unfold outerLoop
      rw [if_neg h]
      by_cases hfl2 : (innerLoop i g1 full g1 used false).2.2 = true
      · -- a merge already happened inside this turn
        have hfacts := innerLoop_facts i g1 full g1 used false
        rcases hfacts.2.2.2 hfl2 with hcon | ⟨j, hjnot, hjin⟩
        · cases hcon
        rcases hfacts.2.2.1 j hjin with hju | ⟨hjne, _, g2, hjfull, _⟩
        · exact absurd hju hjnot
        have hjrest : (j, g2) ∈ rest := by
          rcases hcover (j, g2) hjfull with hu | hm
          · exact absurd hu hjnot
          · rcases List.mem_cons.mp hm with he | hm2
            · exfalso
              exact hjne ((Prod.mk.injEq _ _ _ _).mp he).1
            · exact hm2
        have hlen := outerLoop_length full rest
          (i :: (innerLoop i g1 full g1 used false).2.1)
          (acc ++ [(innerLoop i g1 full g1 used false).1])
          (innerLoop i g1 full g1 used false).2.2
        have hstrict : (rest.filter (fun p => decide
            (p.1 ∉ i :: (innerLoop i g1 full g1 used false).2.1))).length + 1 ≤
            (rest.filter (fun p => decide (p.1 ∉ used))).length := by
          refine filter_length_strict rest _ _ ?_ (j, g2) hjrest ?_ ?_
          · intro x _ hx
            simp only [decide_eq_true_eq] at hx ⊢
            intro hc
            exact hx (List.mem_cons_of_mem _ (hfacts.2.1 x.1 hc))
          · simpa using hjnot
          · simp only [decide_eq_false_iff_not, Decidable.not_not]
            exact List.mem_cons_of_mem _ hjin
        simp only [List.filter_cons, decide_eq_true_eq]
        rw [if_pos (by simpa using h)]
        simp only [List.length_append, List.length_cons, List.length_nil]
          at hlen ⊢
        omega
      · rw [Bool.not_eq_true] at hfl2
        obtain ⟨_, hused, _, _⟩ :=
          innerLoop_false i g1 full g1 used false hfl2
        rw [hfl2, hused] at hflag
        have hcover' : ∀ p ∈ full, p.1 ∈ i :: used ∨ p ∈ rest := by
          intro p hp
          rcases hcover p hp with hu | hm
          · exact Or.inl (List.mem_cons_of_mem _ hu)
          · rcases List.mem_cons.mp hm with rfl | hm2
            · exact Or.inl (List.mem_cons_self _ _)
            · exact Or.inr hm2
        have := ih (i :: used) (acc ++ [(innerLoop i g1 full g1 used false).1])
          hNt hcover' hflag
        have hcnt : (rest.filter (fun p => decide (p.1 ∉ i :: used))).length =
            (rest.filter (fun p => decide (p.1 ∉ used))).length := by
          have : ∀ p ∈ rest, (decide (p.1 ∉ i :: used)) =
              (decide (p.1 ∉ used)) := by
            intro p hp
            have hpne : p.1 ≠ i := by
              intro he
              exact hinotin (he ▸ List.mem_map_of_mem Prod.fst hp)
            by_cases hpu : p.1 ∈ used
            · simp [hpu]
            · simp [hpu, hpne, List.mem_cons]
          rw [List.filter_congr this]
        rw [hfl2, hused]
        simp only [List.filter_cons, decide_eq_true_eq]
        rw [if_pos (by simpa using h)]
        simp only [List.length_append, List.length_cons, List.length_nil]
          at this ⊢
        omega

end Relays

namespace Relays

/-! ### Merge pass and merge loop characterization -/

theorem outerLoop_covers (full : List (Nat × List String))
    (hfullinj : ∀ j g g', (j, g) ∈ full → (j, g') ∈ full → g = g') :
    ∀ (rest : List (Nat × List String)) (used : List Nat)
      (acc : List (List String)) (fl : Bool),
      (∀ p ∈ rest, p ∈ full) →
      (∀ p ∈ full, p.1 ∈ used ∨ p ∈ rest) →
      (∀ j ∈ used, ∀ g, (j, g) ∈ full → ∃ gg ∈ acc, ∀ x ∈ g, x ∈ gg) →
      ∀ p ∈ full, ∃ gg ∈ (outerLoop full rest used acc fl).1,
        ∀ x ∈ p.2, x ∈ gg := by
  intro rest
  induction rest with
  | nil =>
    intro used acc fl _ hcover husedcov p hp
    rcases hcover p hp with hu | hm
    · obtain ⟨gg, hgg, hsubg⟩ := husedcov p.1 hu p.2 hp
      exact ⟨gg, hgg, hsubg⟩
    · cases hm
  | cons q rest ih =>
    intro used acc fl hsub hcover husedcov p hp
    rcases q with ⟨i, g1⟩
    unfold outerLoop
    by_cases h : i ∈ used
    · rw [if_pos h]
      refine ih used acc fl
        (fun p2 hp2 => hsub p2 (List.mem_cons_of_mem _ hp2)) ?_ husedcov p hp
      intro p2 hp2
      rcases hcover p2 hp2 with hu | hm
      · exact Or.inl hu
      · rcases List.mem_cons.mp hm with rfl | hm2
        · exact Or.inl h
        · exact Or.inr hm2
    · rw [if_neg h]
      have hfacts := innerLoop_facts i g1 full g1 used fl
      refine ih _ _ _
        (fun p2 hp2 => hsub p2 (List.mem_cons_of_mem _ hp2)) ?_ ?_ p hp
      · intro p2 hp2
        rcases hcover p2 hp2 with hu | hm
        · exact Or.inl (List.mem_cons_of_mem _ (hfacts.2.1 p2.1 hu))
        · rcases List.mem_cons.mp hm with rfl | hm2
          · exact Or.inl (List.mem_cons_self _ _)
          · exact Or.inr hm2
      · intro j hj g hg
        rcases List.mem_cons.mp hj with rfl | hj2
        · have hg1 : g = g1 :=
            hfullinj j g g1 hg (hsub (j, g1) (List.mem_cons_self _ _))
          refine ⟨(innerLoop j g1 full g1 used fl).1,
            List.mem_append_right _ (List.mem_singleton.mpr rfl), ?_⟩
          rw [hg1]
          exact hfacts.1
        · rcases hfacts.2.2.1 j hj2 with hju | ⟨_, _, g2, hg2full, hg2sub⟩
          · obtain ⟨gg, hgg, hsubg⟩ := husedcov j hju g hg
            exact ⟨gg, List.mem_append_left _ hgg, hsubg⟩
          · have hgg2 : g = g2 := hfullinj j g g2 hg hg2full
            refine ⟨(innerLoop i g1 full g1 used fl).1,
              List.mem_append_right _ (List.mem_singleton.mpr rfl), ?_⟩
            rw [hgg2]
            exact hg2sub

theorem outerLoop_clique (E : String → String → Prop) (hE : Transitive E)
    (full : List (Nat × List String))
    (hfull : ∀ p ∈ full, ∀ a ∈ p.2, ∀ b ∈ p.2, E a b) :
    ∀ (rest : List (Nat × List String)) (used : List Nat)
      (acc : List (List String)) (fl : Bool),
      (∀ p ∈ rest, p ∈ full) →
      (∀ g ∈ acc, ∀ a ∈ g, ∀ b ∈ g, E a b) →
      ∀ g ∈ (outerLoop full rest used acc fl).1, ∀ a ∈ g, ∀ b ∈ g, E a b := by
  intro rest
  induction rest with
  | nil =>
    intro used acc fl _ hacc g hg
    exact hacc g hg
  | cons q rest ih =>
    intro used acc fl hsub hacc g hg
    rcases q with ⟨i, g1⟩
    unfold outerLoop at hg
    by_cases h : i ∈ used
    · rw [if_pos h] at hg
      exact ih used acc fl
        (fun p2 hp2 => hsub p2 (List.mem_cons_of_mem _ hp2)) hacc g hg
    · rw [if_neg h] at hg
      have hg1c : ∀ a ∈ g1, ∀ b ∈ g1, E a b :=
        hfull (i, g1) (hsub (i, g1) (List.mem_cons_self _ _))
      have hmgc : ∀ a ∈ (innerLoop i g1 full g1 used fl).1,
          ∀ b ∈ (innerLoop i g1 full g1 used fl).1, E a b :=
        innerLoop_clique E hE i g1 full g1 used fl
          (fun x hx => hx) hg1c (fun p hp => hfull p hp)
      refine ih _ _ _
        (fun p2 hp2 => hsub p2 (List.mem_cons_of_mem _ hp2)) ?_ g hg
      intro g2 hg2
      rcases List.mem_append.mp hg2 with hg3 | hg3
      · exact hacc g2 hg3
      · rw [List.mem_singleton.mp hg3]
        exact hmgc

theorem mergePass_shrink (conns : List (List String))
    (h : (mergePass conns).2 = true) :
    (mergePass conns).1.length + 1 ≤ conns.length := by
  unfold mergePass at h ⊢
  have hs := outerLoop_shrink (withIdx 0 conns) (withIdx 0 conns) [] []
    (nodup_fst_withIdx 0 conns) (fun p hp => Or.inr hp) h
  have hfilter : (withIdx 0 conns).filter
      (fun p => decide (p.1 ∉ ([] : List Nat))) = withIdx 0 conns := by
    rw [List.filter_eq_self]
    intro p _
    simp
  rw [hfilter] at hs
  rw [length_withIdx] at hs
  simp only [List.length_nil] at hs
  omega

theorem mergePass_false (conns : List (List String))
    (h : (mergePass conns).2 = false) :
    (mergePass conns).1 = conns ∧
    List.Pairwise (fun g g' => ∀ x ∈ g, x ∉ g') conns := by
  unfold mergePass at h ⊢
  obtain ⟨hres, hpair⟩ := outerLoop_false (withIdx 0 conns)
    (withIdx 0 conns) [] []
    (fun j g g' h1 h2 => fst_inj_withIdx h1 h2)
    (nodup_fst_withIdx 0 conns)
    (fun p _ => List.not_mem_nil _)
    (fun p hp => hp) h
  constructor
  · rw [hres]
    simp [map_snd_withIdx]
  · rw [List.pairwise_iff_getElem]
    intro a b ha hb hab
    have h1 : (0 + a, conns[a]) ∈ withIdx 0 conns :=
      getElem_mem_withIdx 0 conns a ha
    have h2 : (0 + b, conns[b]) ∈ withIdx 0 conns :=
      getElem_mem_withIdx 0 conns b hb
    have hov := hpair (0 + a, conns[a]) h1 (0 + b, conns[b]) h2
      (by omega) (List.not_mem_nil _)
    intro x hx hx'
    have hc : overlaps conns[a] conns[b] = true :=
      (overlaps_iff _ _).mpr ⟨x, hx, hx'⟩
    rw [hc] at hov
    cases hov

theorem mergePass_covers (conns : List (List String)) :
    ∀ g ∈ conns, ∃ gg ∈ (mergePass conns).1, ∀ x ∈ g, x ∈ gg := by
  intro g hg
  obtain ⟨j, hj⟩ := exists_withIdx_of_mem hg 0
  have := outerLoop_covers (withIdx 0 conns)
    (fun j g g' h1 h2 => fst_inj_withIdx h1 h2)
    (withIdx 0 conns) [] [] false
    (fun p hp => hp) (fun p hp => Or.inr hp)
    (fun j hj => absurd hj (List.not_mem_nil _)) (j, g) hj
  simpa [mergePass] using this

theorem mergePass_clique (E : String → String → Prop) (hE : Transitive E)
    (conns : List (List String))
    (hconns : ∀ g ∈ conns, ∀ a ∈ g, ∀ b ∈ g, E a b) :
    ∀ g ∈ (mergePass conns).1, ∀ a ∈ g, ∀ b ∈ g, E a b := by
  unfold mergePass
  exact outerLoop_clique E hE (withIdx 0 conns)
    (fun p hp => hconns p.2 (mem_withIdx_snd hp))
    (withIdx 0 conns) [] [] false (fun p hp => hp)
    (fun g hg => absurd hg (List.not_mem_nil _))

theorem mergeLoop_covers :
    ∀ (fuel : Nat) (conns : List (List String)),
      ∀ g ∈ conns, ∃ gg ∈ mergeLoop fuel conns, ∀ x ∈ g, x ∈ gg := by
  intro fuel
  induction fuel with
  | zero =>
    intro conns g hg
    exact ⟨g, hg, fun x hx => hx⟩
  | succ fuel ih =>
    intro conns g hg
    unfold mergeLoop
    by_cases hm : (mergePass conns).2 = true
    · rw [if_pos hm]
      obtain ⟨g1, hg1, hsub1⟩ := mergePass_covers conns g hg
      obtain ⟨gg, hgg, hsub2⟩ := ih (mergePass conns).1 g1 hg1
      exact ⟨gg, hgg, fun x hx => hsub2 x (hsub1 x hx)⟩
    · rw [if_neg hm]
      exact mergePass_covers conns g hg

theorem mergeLoop_clique (E : String → String → Prop) (hE : Transitive E) :
    ∀ (fuel : Nat) (conns : List (List String)),
      (∀ g ∈ conns, ∀ a ∈ g, ∀ b ∈ g, E a b) →
      ∀ g ∈ mergeLoop fuel conns, ∀ a ∈ g, ∀ b ∈ g, E a b := by
  intro fuel
  induction fuel with
  | zero =>
    intro conns hconns g hg
    exact hconns g hg
  | succ fuel ih =>
    intro conns hconns g hg
    unfold mergeLoop at hg
    by_cases hm : (mergePass conns).2 = true
    · rw [if_pos hm] at hg
      exact ih (mergePass conns).1 (mergePass_clique E hE conns hconns) g hg
    · rw [if_neg hm] at hg
      exact mergePass_clique E hE conns hconns g hg

theorem mergeLoop_disjoint :
    ∀ (fuel : Nat) (conns : List (List String)), conns.length < fuel →
      List.Pairwise (fun g g' => ∀ x ∈ g, x ∉ g') (mergeLoop fuel conns) := by
  intro fuel
  induction fuel with
  | zero =>
    intro conns h
    exact absurd h (Nat.not_lt_zero _)
  | succ fuel ih =>
    intro conns h
    unfold mergeLoop
    by_cases hm : (mergePass conns).2 = true
    · rw [if_pos hm]
      refine ih (mergePass conns).1 ?_
      have := mergePass_shrink conns hm
      omega
    · rw [if_neg hm]
      have hm' : (mergePass conns).2 = false := by
        rw [← Bool.not_eq_true]
        exact hm
      obtain ⟨heq, hpw⟩ := mergePass_false conns hm'
      rw [heq]
      exact hpw

end Relays

namespace Relays

/-! ### Merged groups are exactly the connected components -/

theorem linked_trans (conns : List (List String)) :
    Transitive (Linked conns) :=
  fun _ _ _ hab hbc => Relation.TransGen.trans hab hbc

theorem linked_of_mem_mem (conns : List (List String)) {g : List String}
    (hg : g ∈ conns) {a b : String} (ha : a ∈ g) (hb : b ∈ g) :
    Linked conns a b :=
  Relation.TransGen.single ⟨g, hg, ha, hb⟩

theorem linked_support {conns : List (List String)} {a b : String}
    (h : Linked conns a b) : support conns a := by
  have h' : Relation.TransGen (touches conns) a b := h
  clear h
  induction h' with
  | single hr =>
    obtain ⟨g, hg, ha, _⟩ := hr
    exact ⟨g, hg, ha⟩
  | tail _ _ ih => exact ih

theorem merged_unique {merged : List (List String)}
    (hpw : List.Pairwise (fun g g' => ∀ x ∈ g, x ∉ g') merged)
    {g g' : List String} (hg : g ∈ merged) (hg' : g' ∈ merged)
    {w : String} (hw : w ∈ g) (hw' : w ∈ g') : g = g' := by
  by_contra hne
  have hsymm : Symmetric (fun g g' : List String => ∀ x ∈ g, x ∉ g') :=
    fun a b h x hx hx' => h x hx' hx
  exact (hpw.forall hsymm hg hg' hne) w hw hw'

theorem linked_same_group {conns merged : List (List String)}
    (hcov : ∀ g0 ∈ conns, ∃ gg ∈ merged, ∀ x ∈ g0, x ∈ gg)
    (hpw : List.Pairwise (fun g g' => ∀ x ∈ g, x ∉ g') merged)
    {a b : String} (hab : Linked conns a b) :
    ∀ g ∈ merged, a ∈ g → b ∈ g := by
  have hab' : Relation.TransGen (touches conns) a b := hab
  clear hab
  induction hab' with
  | single hr =>
    intro g hg ha
    obtain ⟨g0, hg0, ha0, hb0⟩ := hr
    obtain ⟨gg, hgg, hsub⟩ := hcov g0 hg0
    have heq : g = gg := merged_unique hpw hg hgg ha (hsub a ha0)
    rw [heq]
    exact hsub _ hb0
  | tail _ hr ih =>
    intro g hg ha
    have hmid := ih g hg ha
    obtain ⟨g0, hg0, hb0, hc0⟩ := hr
    obtain ⟨gg, hgg, hsub⟩ := hcov g0 hg0
    have heq : g = gg := merged_unique hpw hg hgg hmid (hsub _ hb0)
    rw [heq]
    exact hsub _ hc0

/-- The group of the merge-loop fixpoint containing `w` has exactly the
wires linked to `w` through the original connection list. -/
theorem merged_group_membership (conns : List (List String))
    {g : List String}
    (hg : g ∈ mergeLoop (conns.length + 1) conns) {w : String}
    (hw : w ∈ g) (x : String) :
    x ∈ g ↔ Linked conns w x := by
  have hpw := mergeLoop_disjoint (conns.length + 1) conns (Nat.lt_succ_self _)
  have hclique := mergeLoop_clique (Linked conns) (linked_trans conns)
    (conns.length + 1) conns
    (fun g0 hg0 a ha b hb => linked_of_mem_mem conns hg0 ha hb) g hg
  constructor
  · intro hx
    exact hclique w hw x hx
  · intro hlink
    exact linked_same_group (mergeLoop_covers (conns.length + 1) conns)
      hpw hlink g hg hw

theorem merged_group_exists (conns : List (List String)) {w : String}
    (hs : support conns w) :
    ∃ g ∈ mergeLoop (conns.length + 1) conns, w ∈ g := by
  obtain ⟨g0, hg0, hw0⟩ := hs
  obtain ⟨gg, hgg, hsub⟩ := mergeLoop_covers (conns.length + 1) conns g0 hg0
  exact ⟨gg, hgg, hsub w hw0⟩

theorem merged_group_support (conns : List (List String)) {g : List String}
    (hg : g ∈ mergeLoop (conns.length + 1) conns) {w : String}
    (hw : w ∈ g) : support conns w := by
  have hclique := mergeLoop_clique (Linked conns) (linked_trans conns)
    (conns.length + 1) conns
    (fun g0 hg0 a ha b hb => linked_of_mem_mem conns hg0 ha hb) g hg
  exact linked_support (hclique w hw w hw)

end Relays

namespace Relays

/-! ### Characterizing the per-group resolution -/

theorem contains_false_iff {β : Type} (d : List (String × β)) (k : String) :
    Dict.contains d k = false ↔ Dict.get? d k = none := by
  unfold Dict.contains
  cases Dict.get? d k <;> simp

theorem contains_insert_elim {β : Type} (d : List (String × β))
    (k x : String) (v : β)
    (h : Dict.contains (Dict.insert d k v) x = true) :
    Dict.contains d x = true ∨ x = k := by
  by_cases hx : x = k
  · exact Or.inr hx
  · rw [Dict.contains, Dict.get?_insert_ne d k x v hx] at h
    exact Or.inl h

theorem get?_assign_not_mem (fixed_wires : WS) (c : WireState)
    (L : List String) (w : String) (hw : w ∉ L) :
    ∀ ws : WS,
      Dict.get?
        (L.foldl
          (fun ws wire =>
            if Dict.contains fixed_wires wire then ws
            else Dict.insert ws wire c) ws) w = Dict.get? ws w := by
  induction L with
  | nil => intro ws; rfl
  | cons x L ih =>
    intro ws
    have hwx : w ≠ x := fun he => hw (he ▸ List.mem_cons_self _ _)
    have hw' : w ∉ L := fun hm => hw (List.mem_cons_of_mem _ hm)
    rw [List.foldl_cons]
    by_cases hx : Dict.contains fixed_wires x = true
    · rw [if_pos hx]
      exact ih hw' ws
    · rw [if_neg hx, ih hw', Dict.get?_insert_ne ws x w c hwx]

theorem processGroup_not_mem (fixed_wires ws : WS) (g : List String)
    (w : String) (hw : w ∉ g) :
    Dict.get? (processGroup fixed_wires ws g) w = Dict.get? ws w := by
  cases hval : collectValues fixed_wires ws g with
  | nil => simp only [processGroup, hval]
  | cons v vs =>
    simp only [processGroup, hval]
    by_cases hc : 1 < ((v :: vs).dedup).length
    · rw [if_pos hc]
      exact get?_assign_not_mem fixed_wires FLOATING g w hw ws
    · rw [if_neg hc]
      exact get?_assign_not_mem fixed_wires v g w hw ws

theorem contains_assign_elim (fixed_wires : WS) (c : WireState)
    (L : List String) (x : String) :
    ∀ ws : WS,
      Dict.contains
        (L.foldl
          (fun ws wire =>
            if Dict.contains fixed_wires wire then ws
            else Dict.insert ws wire c) ws) x = true →
      Dict.contains ws x = true ∨ x ∈ L := by
  induction L with
  | nil => intro ws h; exact Or.inl h
  | cons y L ih =>
    intro ws h
    rw [List.foldl_cons] at h
    by_cases hy : Dict.contains fixed_wires y = true
    · rw [if_pos hy] at h
      rcases ih ws h with h2 | h2
      · exact Or.inl h2
      · exact Or.inr (List.mem_cons_of_mem _ h2)
    · rw [if_neg hy] at h
      rcases ih _ h with h2 | h2
      · rcases contains_insert_elim ws y x c h2 with h3 | rfl
        · exact Or.inl h3
        · exact Or.inr (List.mem_cons_self _ _)
      · exact Or.inr (List.mem_cons_of_mem _ h2)

theorem processGroup_contains_elim (fixed_wires ws : WS) (g : List String)
    (x : String)
    (h : Dict.contains (processGroup fixed_wires ws g) x = true) :
    Dict.contains ws x = true ∨ x ∈ g := by
  cases hval : collectValues fixed_wires ws g with
  | nil =>
    simp only [processGroup, hval] at h
    exact Or.inl h
  | cons v vs =>
    simp only [processGroup, hval] at h
    by_cases hc : 1 < ((v :: vs).dedup).length
    · rw [if_pos hc] at h
      exact contains_assign_elim fixed_wires FLOATING g x ws h
    · rw [if_neg hc] at h
      exact contains_assign_elim fixed_wires v g x ws h

theorem collectValues_eq_groupValues (fixed_wires ws : WS)
    (g : List String)
    (hk : ∀ x ∈ g, Dict.contains ws x = true →
      Dict.contains fixed_wires x = true) :
    collectValues fixed_wires ws g = groupValues fixed_wires g := by
  unfold collectValues groupValues
  suffices hgen : ∀ acc : List WireState,
      g.foldl
        (fun values wire =>
          match Dict.get? fixed_wires wire with
          | some v => values ++ [v]
          | none =>
            match Dict.get? ws wire with
            | some v => if v ≠ FLOATING then values ++ [v] else values
            | none => values) acc =
      g.foldl
        (fun values wire =>
          match Dict.get? fixed_wires wire with
          | some v => values ++ [v]
          | none => values) acc by
    exact hgen []
  induction g with
  | nil => intro acc; rfl
  | cons w g ih =>
    intro acc
    have hk' : ∀ x ∈ g, Dict.contains ws x = true →
        Dict.contains fixed_wires x = true :=
      fun x hx => hk x (List.mem_cons_of_mem _ hx)
    rw [List.foldl_cons, List.foldl_cons]
    cases hfw : Dict.get? fixed_wires w with
    | some v => exact ih hk' _
    | none =>
      have hws : Dict.get? ws w = none := by
        rw [← contains_false_iff]
        cases hc : Dict.contains ws w with
        | false => rfl
        | true =>
          have := hk w (List.mem_cons_self _ _) hc
          rw [Dict.contains, hfw] at this
          cases this
      rw [hws]
      exact ih hk' _

theorem get?_assign_persist (fixed_wires : WS) (c : WireState)
    (L : List String) (w : String) :
    ∀ ws : WS, Dict.get? ws w = some c →
      Dict.get?
        (L.foldl
          (fun ws wire =>
            if Dict.contains fixed_wires wire then ws
            else Dict.insert ws wire c) ws) w = some c := by
  induction L with
  | nil => intro ws h; exact h
  | cons x L ih =>
    intro ws h
    rw [List.foldl_cons]
    by_cases hx : Dict.contains fixed_wires x = true
    · rw [if_pos hx]
      exact ih ws h
    · rw [if_neg hx]
      by_cases hwx : w = x
      · subst hwx
        exact ih _ (Dict.get?_insert_self ws w c)
      · exact ih _ (by rw [Dict.get?_insert_ne ws x w c hwx]; exact h)

theorem get?_assign_mem (fixed_wires : WS) (c : WireState)
    (L : List String) (w : String) (hw : w ∈ L)
    (hwf : Dict.contains fixed_wires w = false) :
    ∀ ws : WS,
      Dict.get?
        (L.foldl
          (fun ws wire =>
            if Dict.contains fixed_wires wire then ws
            else Dict.insert ws wire c) ws) w = some c := by
  induction L with
  | nil => cases hw
  | cons x L ih =>
    intro ws
    rw [List.foldl_cons]
    by_cases hwx : w = x
    · subst hwx
      rw [if_neg (by rw [hwf]; exact Bool.false_ne_true)]
      exact get?_assign_persist fixed_wires c L w _
        (Dict.get?_insert_self ws w c)
    · have hw' : w ∈ L := by
        rcases List.mem_cons.mp hw with he | hm
        · exact absurd he hwx
        · exact hm
      by_cases hx : Dict.contains fixed_wires x = true
      · rw [if_pos hx]
        exact ih hw' ws
      · rw [if_neg hx]
        exact ih hw' _

theorem processGroup_mem_value (fixed_wires ws : WS) (g : List String)
    (hk : ∀ x ∈ g, Dict.contains ws x = true →
      Dict.contains fixed_wires x = true)
    (w : String) (hw : w ∈ g)
    (hwf : Dict.contains fixed_wires w = false) :
    Dict.get? (processGroup fixed_wires ws g) w =
      resolvedValue? fixed_wires g := by
  have hcol := collectValues_eq_groupValues fixed_wires ws g hk
  cases hgv : groupValues fixed_wires g with
  | nil =>
    rw [hgv] at hcol
    simp only [processGroup, resolvedValue?, hcol, hgv]
    have hws : Dict.contains ws w = false := by
      cases hc : Dict.contains ws w with
      | false => rfl
      | true =>
        have := hk w hw hc
        rw [this] at hwf
        cases hwf
    exact (contains_false_iff ws w).mp hws
  | cons v vs =>
    rw [hgv] at hcol
    simp only [processGroup, resolvedValue?, hcol, hgv]
    by_cases hc : 1 < ((v :: vs).dedup).length
    · rw [if_pos hc, if_pos hc]
      exact get?_assign_mem fixed_wires FLOATING g w hw hwf ws
    · rw [if_neg hc, if_neg hc]
      exact get?_assign_mem fixed_wires v g w hw hwf ws

theorem processGroups_not_mem (fixed_wires : WS)
    (groups : List (List String)) (w : String)
    (h : ∀ g ∈ groups, w ∉ g) :
    ∀ ws : WS,
      Dict.get? (groups.foldl (processGroup fixed_wires) ws) w =
        Dict.get? ws w := by
  induction groups with
  | nil => intro ws; rfl
  | cons g groups ih =>
    intro ws
    rw [List.foldl_cons,
      ih (fun g' hg' => h g' (List.mem_cons_of_mem _ hg')),
      processGroup_not_mem fixed_wires ws g w (h g (List.mem_cons_self _ _))]

theorem processGroups_mem_value (fixed_wires : WS) :
    ∀ (groups : List (List String)) (ws : WS),
      (∀ g ∈ groups, ∀ x ∈ g, Dict.contains ws x = true →
        Dict.contains fixed_wires x = true) →
      List.Pairwise (fun g g' => ∀ x ∈ g, x ∉ g') groups →
      ∀ g ∈ groups, ∀ w ∈ g, Dict.contains fixed_wires w = false →
        Dict.get? (groups.foldl (processGroup fixed_wires) ws) w =
          resolvedValue? fixed_wires g := by
  intro groups
  induction groups with
  | nil =>
    intro ws _ _ g hg
    cases hg
  | cons g0 rest ih =>
    intro ws hk hpw g hg w hw hwf
    have hpw0 := (List.pairwise_cons.mp hpw).1
    have hpwr := (List.pairwise_cons.mp hpw).2
    rcases List.mem_cons.mp hg with rfl | hg2
    · rw [List.foldl_cons]
      have hval := processGroup_mem_value fixed_wires ws g
        (hk g (List.mem_cons_self _ _)) w hw hwf
      rw [processGroups_not_mem fixed_wires rest w
        (fun g' hg' => hpw0 g' hg' w hw)]
      exact hval
    · rw [List.foldl_cons]
      refine ih (processGroup fixed_wires ws g0) ?_ hpwr g hg2 w hw hwf
      intro g' hg' x hx hcx
      rcases processGroup_contains_elim fixed_wires ws g0 x hcx with h2 | h2
      · exact hk g' (List.mem_cons_of_mem _ hg') x hx h2
      · exact absurd hx (hpw0 g' hg' x h2)

end Relays

namespace Relays

/-! ### The final FLOATING fill and value-set congruence -/

theorem get?_fill_mem (L : List String) (w : String) (hw : w ∈ L) :
    ∀ ws : WS, Dict.contains ws w = false →
      Dict.get?
        (L.foldl
          (fun ws wire =>
            if Dict.contains ws wire then ws
            else Dict.insert ws wire FLOATING) ws) w = some FLOATING := by
  induction L with
  | nil => cases hw
  | cons x L ih =>
    intro ws hc
    rw [List.foldl_cons]
    by_cases hwx : w = x
    · subst hwx
      rw [if_neg (by rw [hc]; exact Bool.false_ne_true)]
      exact get?_fill_preserved L _ w FLOATING (Dict.get?_insert_self ws w _)
    · have hw' : w ∈ L := by
        rcases List.mem_cons.mp hw with he | hm
        · exact absurd he hwx
        · exact hm
      by_cases hx : Dict.contains ws x = true
      · rw [if_pos hx]
        exact ih hw' ws hc
      · rw [if_neg hx]
        refine ih hw' _ ?_
        rw [Dict.contains]
        rw [Dict.get?_insert_ne ws x w FLOATING hwx]
        exact hc

theorem get?_fill_not_mem (L : List String) (w : String) (hw : w ∉ L) :
    ∀ ws : WS,
      Dict.get?
        (L.foldl
          (fun ws wire =>
            if Dict.contains ws wire then ws
            else Dict.insert ws wire FLOATING) ws) w = Dict.get? ws w := by
  induction L with
  | nil => intro ws; rfl
  | cons x L ih =>
    intro ws
    have hwx : w ≠ x := fun he => hw (he ▸ List.mem_cons_self _ _)
    have hw' : w ∉ L := fun hm => hw (List.mem_cons_of_mem _ hm)
    rw [List.foldl_cons]
    by_cases hx : Dict.contains ws x = true
    · rw [if_pos hx]
      exact ih hw' ws
    · rw [if_neg hx, ih hw', Dict.get?_insert_ne ws x w FLOATING hwx]

theorem mem_groupValues (fixed_wires : WS) (g : List String)
    (v : WireState) :
    v ∈ groupValues fixed_wires g ↔
      ∃ x ∈ g, Dict.get? fixed_wires x = some v := by
  unfold groupValues
  suffices hgen : ∀ acc : List WireState,
      v ∈ g.foldl
        (fun values wire =>
          match Dict.get? fixed_wires wire with
          | some v => values ++ [v]
          | none => values) acc ↔
      v ∈ acc ∨ ∃ x ∈ g, Dict.get? fixed_wires x = some v by
    rw [hgen []]
    simp
  induction g with
  | nil => intro acc; simp
  | cons w g ih =>
    intro acc
    rw [List.foldl_cons]
    cases hfw : Dict.get? fixed_wires w with
    | none =>
      rw [ih acc]
      constructor
      · rintro (h | ⟨x, hx, hv⟩)
        · exact Or.inl h
        · exact Or.inr ⟨x, List.mem_cons_of_mem _ hx, hv⟩
      · rintro (h | ⟨x, hx, hv⟩)
        · exact Or.inl h
        · rcases List.mem_cons.mp hx with rfl | hx2
          · rw [hfw] at hv
            cases hv
          · exact Or.inr ⟨x, hx2, hv⟩
    | some u =>
      rw [ih (acc ++ [u])]
      constructor
      · rintro (h | ⟨x, hx, hv⟩)
        · rcases List.mem_append.mp h with h2 | h2
          · exact Or.inl h2
          · refine Or.inr ⟨w, List.mem_cons_self _ _, ?_⟩
            rw [hfw, List.mem_singleton.mp h2]
        · exact Or.inr ⟨x, List.mem_cons_of_mem _ hx, hv⟩
      · rintro (h | ⟨x, hx, hv⟩)
        · exact Or.inl (List.mem_append_left _ h)
        · rcases List.mem_cons.mp hx with rfl | hx2
          · rw [hfw] at hv
            refine Or.inl (List.mem_append_right _ ?_)
            rw [List.mem_singleton]
            exact (Option.some.injEq _ _ ▸ hv).symm
          · exact Or.inr ⟨x, hx2, hv⟩

theorem two_distinct_iff (l : List WireState) :
    1 < l.dedup.length ↔ ∃ a b, a ∈ l ∧ b ∈ l ∧ a ≠ b := by
  constructor
  · intro h
    cases hd : l.dedup with
    | nil =>
      rw [hd] at h
      simp at h
    | cons a t =>
      cases ht : t with
      | nil =>
        rw [hd, ht] at h
        simp at h
      | cons b t2 =>
        have hnd := l.nodup_dedup
        rw [hd, ht] at hnd
        have hab : a ≠ b := by
          intro he
          rw [he] at hnd
          exact (List.nodup_cons.mp hnd).1 (List.mem_cons_self _ _)
        have ha : a ∈ l := List.mem_dedup.mp (by
          rw [hd]
          exact List.mem_cons_self _ _)
        have hb : b ∈ l := List.mem_dedup.mp (by
          rw [hd, ht]
          exact List.mem_cons_of_mem _ (List.mem_cons_self _ _))
        exact ⟨a, b, ha, hb, hab⟩
  · rintro ⟨a, b, ha, hb, hab⟩
    have ha' : a ∈ l.dedup := List.mem_dedup.mpr ha
    have hb' : b ∈ l.dedup := List.mem_dedup.mpr hb
    by_contra h
    cases hd : l.dedup with
    | nil =>
      rw [hd] at ha'
      cases ha'
    | cons c t =>
      cases ht : t with
      | nil =>
        rw [hd, ht] at ha' hb'
        have ha2 : a = c := by simpa using ha'
        have hb2 : b = c := by simpa using hb'
        rw [ha2, hb2] at hab
        exact hab rfl
      | cons d t2 =>
        rw [hd, ht] at h
        simp at h

theorem resolvedValue_congr (fixed_wires : WS) (g1 g2 : List String)
    (hmem : ∀ x, x ∈ g1 ↔ x ∈ g2) :
    resolvedValue? fixed_wires g1 = resolvedValue? fixed_wires g2 := by
  have hv : ∀ v, v ∈ groupValues fixed_wires g1 ↔
      v ∈ groupValues fixed_wires g2 := by
    intro v
    rw [mem_groupValues, mem_groupValues]
    constructor
    · rintro ⟨x, hx, h⟩
      exact ⟨x, (hmem x).mp hx, h⟩
    · rintro ⟨x, hx, h⟩
      exact ⟨x, (hmem x).mpr hx, h⟩
  cases h1 : groupValues fixed_wires g1 with
  | nil =>
    cases h2 : groupValues fixed_wires g2 with
    | nil => simp only [resolvedValue?, h1, h2]
    | cons u us =>
      exfalso
      have := (hv u).mpr (by rw [h2]; exact List.mem_cons_self _ _)
      rw [h1] at this
      cases this
  | cons v vs =>
    cases h2 : groupValues fixed_wires g2 with
    | nil =>
      exfalso
      have := (hv v).mp (by rw [h1]; exact List.mem_cons_self _ _)
      rw [h2] at this
      cases this
    | cons u us =>
      rw [h1, h2] at hv
      simp only [resolvedValue?, h1, h2]
      have hcard : (1 < ((v :: vs).dedup).length) ↔
          (1 < ((u :: us).dedup).length) := by
        rw [two_distinct_iff, two_distinct_iff]
        constructor
        · rintro ⟨a, b, ha, hb, hab⟩
          exact ⟨a, b, (hv a).mp ha, (hv b).mp hb, hab⟩
        · rintro ⟨a, b, ha, hb, hab⟩
          exact ⟨a, b, (hv a).mpr ha, (hv b).mpr hb, hab⟩
      by_cases hc : 1 < ((v :: vs).dedup).length
      · rw [if_pos hc, if_pos (hcard.mp hc)]
      · rw [if_neg hc, if_neg (fun hh => hc (hcard.mpr hh))]
        have hall : ∀ a ∈ u :: us, ∀ b ∈ u :: us, a = b := by
          intro a ha b hb
          by_contra hne
          exact hc (hcard.mpr ((two_distinct_iff _).mpr ⟨a, b, ha, hb, hne⟩))
        have hvin : v ∈ u :: us := (hv v).mp (List.mem_cons_self _ _)
        rw [hall v hvin u (List.mem_cons_self _ _)]

theorem mem_allWires (relays : List Relay) (w : String) :
    w ∈ allWires relays ↔ ∃ r ∈ relays, w ∈ relayWires r := by
  unfold allWires
  suffices hgen : ∀ acc : List String,
      w ∈ relays.foldl (fun acc relay => sunion acc (relayWires relay)) acc ↔
      w ∈ acc ∨ ∃ r ∈ relays, w ∈ relayWires r by
    rw [hgen []]
    simp
  induction relays with
  | nil => intro acc; simp
  | cons r relays ih =>
    intro acc
    rw [List.foldl_cons, ih (sunion acc (relayWires r)),
      mem_sunion acc (relayWires r) w]
    constructor
    · rintro ((h | h) | ⟨r2, hr2, h⟩)
      · exact Or.inl h
      · exact Or.inr ⟨r, List.mem_cons_self _ _, h⟩
      · exact Or.inr ⟨r2, List.mem_cons_of_mem _ hr2, h⟩
    · rintro (h | ⟨r2, hr2, h⟩)
      · exact Or.inl (Or.inl h)
      · rcases List.mem_cons.mp hr2 with rfl | hr3
        · exact Or.inl (Or.inr h)
        · exact Or.inr ⟨r2, hr3, h⟩

theorem base_subset_relayWires (r : Relay) (x : String)
    (hx : x ∈ sinsert r.comm (sinsert r.coil_b [r.coil_a])) :
    x ∈ relayWires r := by
  simp only [relayWires]
  by_cases h2 : r.nc.getD "" ≠ ""
  · rw [if_pos h2]
    by_cases h1 : r.no ≠ ""
    · rw [if_pos h1]
      exact (mem_sinsert _ _ _).mpr (Or.inr ((mem_sinsert _ _ _).mpr (Or.inr hx)))
    · rw [if_neg h1]
      exact (mem_sinsert _ _ _).mpr (Or.inr hx)
  · rw [if_neg h2]
    by_cases h1 : r.no ≠ ""
    · rw [if_pos h1]
      exact (mem_sinsert _ _ _).mpr (Or.inr hx)
    · rw [if_neg h1]
      exact hx

theorem comm_mem_relayWires (r : Relay) : r.comm ∈ relayWires r :=
  base_subset_relayWires r r.comm ((mem_sinsert _ _ _).mpr (Or.inl rfl))

theorem no_mem_relayWires (r : Relay) (h : r.no ≠ "") :
    r.no ∈ relayWires r := by
  simp only [relayWires]
  by_cases h2 : r.nc.getD "" ≠ ""
  · rw [if_pos h2, if_pos h]
    exact (mem_sinsert _ _ _).mpr (Or.inr ((mem_sinsert _ _ _).mpr (Or.inl rfl)))
  · rw [if_neg h2, if_pos h]
    exact (mem_sinsert _ _ _).mpr (Or.inl rfl)

theorem nc_mem_relayWires (r : Relay) (h : r.nc.getD "" ≠ "") :
    r.nc.getD "" ∈ relayWires r := by
  simp only [relayWires]
  rw [if_pos h]
  exact (mem_sinsert _ _ _).mpr (Or.inl rfl)

theorem edge_subset_relayWires (relay_states : RS) (r : Relay)
    (g : List String) (h : edgeOf relay_states r = some g) :
    ∀ x ∈ g, x ∈ relayWires r := by
  simp only [edgeOf] at h
  by_cases h1 : Dict.getD relay_states r.name RelayPosition.OFF =
      RelayPosition.ON ∧ r.no ≠ ""
  · rw [if_pos h1] at h
    have hg : g = sinsert r.no [r.comm] := (Option.some.injEq _ _ ▸ h).symm
    rw [hg]
    intro x hx
    rcases (mem_sinsert _ _ _).mp hx with rfl | hx2
    · exact no_mem_relayWires r h1.2
    · rw [List.mem_singleton.mp hx2]
      exact comm_mem_relayWires r
  · rw [if_neg h1] at h
    by_cases h2 : Dict.getD relay_states r.name RelayPosition.OFF =
        RelayPosition.OFF ∧ r.nc.getD "" ≠ ""
    · rw [if_pos h2] at h
      have hg : g = sinsert (r.nc.getD "") [r.comm] :=
        (Option.some.injEq _ _ ▸ h).symm
      rw [hg]
      intro x hx
      rcases (mem_sinsert _ _ _).mp hx with rfl | hx2
      · exact nc_mem_relayWires r h2.2
      · rw [List.mem_singleton.mp hx2]
        exact comm_mem_relayWires r
    · rw [if_neg h2] at h
      cases h

theorem support_mem_allWires (relays : List Relay) (relay_states : RS)
    (w : String) (h : support (relays.filterMap (edgeOf relay_states)) w) :
    w ∈ allWires relays := by
  obtain ⟨g, hg, hw⟩ := h
  rw [List.mem_filterMap] at hg
  obtain ⟨r, hr, hedge⟩ := hg
  rw [mem_allWires]
  exact ⟨r, hr, edge_subset_relayWires relay_states r g hedge w hw⟩

end Relays

namespace Relays

/-! ### Order-independence of the resolver (C9) -/

/-- For a non-fixed wire lying in a merged group, the resolver assigns
the group's resolved value, or `FLOATING` when the group has no asserted
value (then the wire stays absent until the final fill). -/
theorem propagate_group_value (relays : List Relay) (relay_states : RS)
    (fixed_wires : WS) (w : String)
    (hwf : Dict.contains fixed_wires w = false) {g : List String}
    (hg : g ∈ mergeLoop
      ((relays.filterMap (edgeOf relay_states)).length + 1)
      (relays.filterMap (edgeOf relay_states)))
    (hw : w ∈ g) :
    Dict.get? (propagate_signals relays relay_states fixed_wires) w =
      some ((resolvedValue? fixed_wires g).getD FLOATING) := by
  simp only [propagate_signals]
  have hdisj := mergeLoop_disjoint
    ((relays.filterMap (edgeOf relay_states)).length + 1)
    (relays.filterMap (edgeOf relay_states)) (Nat.lt_succ_self _)
  have hws2 := processGroups_mem_value fixed_wires
    (mergeLoop ((relays.filterMap (edgeOf relay_states)).length + 1)
      (relays.filterMap (edgeOf relay_states))) fixed_wires
    (fun g2 hg2 x hx hc => hc) hdisj g hg w hw hwf
  cases hres : resolvedValue? fixed_wires g with
  | some u =>
    rw [hres] at hws2
    exact get?_fill_preserved (allWires relays) _ w u hws2
  | none =>
    rw [hres] at hws2
    have hcont := (contains_false_iff _ w).mpr hws2
    have hall : w ∈ allWires relays := support_mem_allWires relays
      relay_states w (merged_group_support
        (relays.filterMap (edgeOf relay_states)) hg hw)
    exact get?_fill_mem (allWires relays) w hall _ hcont

/-- A non-fixed wire in no connection group resolves to `FLOATING` when
it is a relay terminal, and is absent from the result otherwise. -/
theorem propagate_no_group (relays : List Relay) (relay_states : RS)
    (fixed_wires : WS) (w : String)
    (hwf : Dict.contains fixed_wires w = false)
    (hns : ¬ support (relays.filterMap (edgeOf relay_states)) w) :
    Dict.get? (propagate_signals relays relay_states fixed_wires) w =
      (if w ∈ allWires relays then some FLOATING else none) := by
  simp only [propagate_signals]
  have hno : ∀ g ∈ mergeLoop
      ((relays.filterMap (edgeOf relay_states)).length + 1)
      (relays.filterMap (edgeOf relay_states)), w ∉ g :=
    fun g hg hw => hns (merged_group_support
      (relays.filterMap (edgeOf relay_states)) hg hw)
  have hws2 := processGroups_not_mem fixed_wires
    (mergeLoop ((relays.filterMap (edgeOf relay_states)).length + 1)
      (relays.filterMap (edgeOf relay_states))) w hno fixed_wires
  have hnone : Dict.get? fixed_wires w = none :=
    (contains_false_iff fixed_wires w).mp hwf
  by_cases hall : w ∈ allWires relays
  · rw [if_pos hall]
    exact get?_fill_mem (allWires relays) w hall _
      ((contains_false_iff _ _).mpr (hws2.trans hnone))
  · rw [if_neg hall]
    rw [get?_fill_not_mem (allWires relays) w hall _, hws2, hnone]

theorem linked_iff_of_mem_iff (conns1 conns2 : List (List String))
    (h : ∀ g, g ∈ conns1 ↔ g ∈ conns2) (a b : String) :
    Linked conns1 a b ↔ Linked conns2 a b := by
  constructor
  · intro hl
    exact Relation.TransGen.mono
      (fun x y hxy => by
        obtain ⟨g, hg, hx, hy⟩ := hxy
        exact ⟨g, (h g).mp hg, hx, hy⟩) hl
  · intro hl
    exact Relation.TransGen.mono
      (fun x y hxy => by
        obtain ⟨g, hg, hx, hy⟩ := hxy
        exact ⟨g, (h g).mpr hg, hx, hy⟩) hl

/-- C9: the signal resolver is order-independent.  Permuting the relay
list — which permutes the derived connection list and hence the order in
which connection groups are built, merged and processed — never changes
the resulting wire-to-state mapping: every wire is looked up to the same
value.  (Fixed wires keep their values; a wire in a connection group gets
the value determined by its component's asserted-value set, which depends
only on which wires are transitively connected; terminals outside every
group get `FLOATING`; other names stay absent.) -/
theorem C9_resolver_permutation_invariant (relays1 relays2 : List Relay)
    (relay_states : RS) (fixed_wires : WS)
    (hperm : relays1.Perm relays2) (w : String) :
    Dict.get? (propagate_signals relays1 relay_states fixed_wires) w =
      Dict.get? (propagate_signals relays2 relay_states fixed_wires) w := by
  by_cases hwf : Dict.contains fixed_wires w = true
  · have hwf2 : (Dict.get? fixed_wires w).isSome = true := hwf
    obtain ⟨v, hv⟩ := Option.isSome_iff_exists.mp hwf2
    rw [propagate_fixed_value relays1 relay_states fixed_wires w v hv,
      propagate_fixed_value relays2 relay_states fixed_wires w v hv]
  · have hwf' : Dict.contains fixed_wires w = false := by
      rw [← Bool.not_eq_true]
      exact hwf
    have hmem : ∀ g, g ∈ relays1.filterMap (edgeOf relay_states) ↔
        g ∈ relays2.filterMap (edgeOf relay_states) :=
      fun g => (hperm.filterMap (edgeOf relay_states)).mem_iff
    by_cases hs : support (relays1.filterMap (edgeOf relay_states)) w
    · obtain ⟨g1, hg1, hw1⟩ :=
        merged_group_exists (relays1.filterMap (edgeOf relay_states)) hs
      have hs2 : support (relays2.filterMap (edgeOf relay_states)) w := by
        obtain ⟨g, hg, hw0⟩ := hs
        exact ⟨g, (hmem g).mp hg, hw0⟩
      obtain ⟨g2, hg2, hw2⟩ :=
        merged_group_exists (relays2.filterMap (edgeOf relay_states)) hs2
      have hmemg : ∀ x, x ∈ g1 ↔ x ∈ g2 := by
        intro x
        rw [merged_group_membership _ hg1 hw1 x,
          merged_group_membership _ hg2 hw2 x]
        exact linked_iff_of_mem_iff _ _ hmem w x
      rw [propagate_group_value relays1 relay_states fixed_wires w hwf'
          hg1 hw1,
        propagate_group_value relays2 relay_states fixed_wires w hwf'
          hg2 hw2,
        resolvedValue_congr fixed_wires g1 g2 hmemg]
    · have hs2 : ¬ support (relays2.filterMap (edgeOf relay_states)) w := by
        intro h2
        obtain ⟨g, hg, hw0⟩ := h2
        exact hs ⟨g, (hmem g).mpr hg, hw0⟩
      rw [propagate_no_group relays1 relay_states fixed_wires w hwf' hs,
        propagate_no_group relays2 relay_states fixed_wires w hwf' hs2]
      have hall : w ∈ allWires relays1 ↔ w ∈ allWires relays2 := by
        rw [mem_allWires, mem_allWires]
        constructor
        · rintro ⟨r, hr, h⟩
          exact ⟨r, hperm.mem_iff.mp hr, h⟩
        · rintro ⟨r, hr, h⟩
          exact ⟨r, hperm.mem_iff.mpr hr, h⟩
      by_cases hA : w ∈ allWires relays1
      · rw [if_pos hA, if_pos (hall.mp hA)]
      · rw [if_neg hA, if_neg (fun hh => hA (hall.mpr hh))]

/-- Witness for C9: reversing the race circuit's relay list leaves the
resolved value of `Out` unchanged. -/
theorem C9_witness :
    Dict.get? (propagate_signals race_condition_circuit bothOn raceFixed)
      "Out" =
    Dict.get? (propagate_signals race_condition_circuit.reverse bothOn
      raceFixed) "Out" :=
  C9_resolver_permutation_invariant race_condition_circuit
    race_condition_circuit.reverse bothOn raceFixed
    (List.reverse_perm race_condition_circuit).symm "Out"

end Relays
